import Mathlib

/-!
Verification of the import-graph builder of the `tobbstr/go` repository
(`src/imptree/imptree.go` and the `module` package utilities).

Embedding notes.

* A `*packages.Package` carries a `PkgPath` identifier and an `Imports`
  map from import path to the imported package.  In every well-formed
  load the map key equals the `PkgPath` of the imported package, so the
  externally supplied import graph is embedded as a function
  `imports : String → List String` (the list fixes one iteration order
  of the Go map; no claim depends on a particular order).
* Within one build the Go code keeps at most one `*Node` per import
  path (`b.nodes` is consulted before every allocation), so pointer
  identity coincides with `PkgPath` identity.  The doubly linked node
  structure is therefore embedded as a state `BState`: the list of
  materialized identifiers (insertion order of `b.nodes`) plus the
  `Children` and `Parents` lists of every node, keyed by identifier.
* `buildTree` recurses without any fuel in Go; the embedding adds an
  explicit fuel argument and returns `none` when the fuel runs out.
  `some s` means the Go recursion finishes with final state `s`;
  `(∀ fuel, … = none)` means the Go recursion never finishes.
-/

/-- `MatchPkg` is the inclusion predicate; the Go predicate receives the
package value, whose identity is its `PkgPath`. -/
def MatchPkg := String → Bool

/-- The externally supplied import graph: for each package identifier,
the identifiers it imports (the `Imports` map of `packages.Package`). -/
structure Graph where
  imports : String → List String

/-- The builder state: `keys` is the insertion-ordered domain of the
`b.nodes` map; `children x` and `parents x` are the `Children` and
`Parents` slices of the node with path `x` (`[]` both for a nil slice
and for a node that does not exist yet, matching the Go zero values). -/
structure BState where
  keys : List String
  children : String → List String
  parents : String → List String

def emptyState : BState :=
  { keys := [], children := fun _ => [], parents := fun _ => [] }

/-- `containsNode` from imptree.go:133-145: reports whether the slice
already holds the node (pointer identity = path identity, see above). -/
def containsNode (slc : List String) (node : String) : Bool :=
  match slc with
  | [] => false
  | _ :: _ => slc.any (fun x => x == node)

/-- The reuse-or-create step `if n, ok := b.nodes[path]; ok … else …`:
materialize a node for `x` unless one already exists. -/
def ensureNode (s : BState) (x : String) : BState :=
  if x ∈ s.keys then s else { s with keys := s.keys ++ [x] }

/-- `childNode.Parents = append(childNode.Parents, node)` guarded by
`containsNode` (imptree.go:121-123). -/
def addParent (s : BState) (c p : String) : BState :=
  if containsNode (s.parents c) p then s
  else { s with parents := fun y => if y = c then s.parents c ++ [p] else s.parents y }

/-- `node.Children = append(node.Children, childNode)` guarded by
`containsNode` (imptree.go:125-127). -/
def addChild (s : BState) (p c : String) : BState :=
  if containsNode (s.children p) c then s
  else { s with children := fun y => if y = p then s.children p ++ [c] else s.children y }

/-- One pending piece of work of the recursive walk: either the body of
`buildTree(pkg, matchPkg)` for the package `p`, or the remainder of its
`for importPath, childPkg := range pkg.Imports` loop. -/
inductive WTask where
  | visit (p : String)
  | kids (p : String) (cs : List String)

/-- `buildTree` from imptree.go:95-131, with explicit fuel.  Every Go
call (function entry or next loop iteration) consumes one unit of fuel;
`none` means the fuel ran out, i.e. the Go recursion has not finished
within that many steps. -/
def buildTree (g : Graph) (m : MatchPkg) : Nat → WTask → BState → Option BState
  | 0, _, _ => none
  | Nat.succ n, WTask.visit p, s =>
      if m p then buildTree g m n (WTask.kids p (g.imports p)) (ensureNode s p)
      else some s
  | Nat.succ _, WTask.kids _ [], s => some s
  | Nat.succ n, WTask.kids p (c :: cs), s =>
      if m c then
        match buildTree g m n (WTask.visit c) (addChild (addParent (ensureNode s c) c p) p c) with
        | none => none
        | some s1 => buildTree g m n (WTask.kids p cs) s1
      else buildTree g m n (WTask.kids p cs) s

/-- The root-location loop of `Build` (imptree.go:84-90): follow
`node = node.Parents[0]` while the parents slice is non-empty.  The Go
loop can run forever on a parent cycle, hence the fuel. -/
def findRoot (s : BState) : Nat → String → Option String
  | 0, _ => none
  | Nat.succ n, x =>
      match s.parents x with
      | [] => some x
      | p :: _ => findRoot s n p

/-- `Builder.Build` from imptree.go:62-93.  The two collaborator hooks
are embedded by their observed results: `loadRes` is what `loadPkgs`
returned (an error, or the list of top-level package identifiers) and
`errCount` is what `printLoadPkgsErrors` returned.  The Go map
iteration `for _, node := range b.nodes` picks an arbitrary first node;
the embedding picks the first materialized key. -/
def Build (g : Graph) (m : MatchPkg) (fuel : Nat)
    (loadRes : Except String (List String)) (errCount : Nat) :
    Option (Except String (String × BState)) :=
  match loadRes with
  | Except.error e => some (Except.error e)
  | Except.ok pkgs =>
    if 0 < errCount ∨ pkgs.length ≠ 1 then
      some (Except.error "failed to load source package")
    else
      match pkgs with
      | [p] =>
        match buildTree g m fuel (WTask.visit p) emptyState with
        | none => none
        | some s =>
          match s.keys with
          | [] => some (Except.error "could not find tree root node")
          | k :: _ =>
            match findRoot s fuel k with
            | none => none
            | some rt => some (Except.ok (rt, s))
      | _ => some (Except.error "failed to load source package")

/-- Builder state instrumented with the number of times the predicate
`matchPkg` has been evaluated on each identifier. -/
structure CState where
  bs : BState
  calls : String → Nat

def bump (k : String → Nat) (x : String) : String → Nat :=
  fun y => if y = x then k y + 1 else k y

/-- `buildTree` instrumented to count predicate evaluations: `matchPkg`
is evaluated once at every function entry (imptree.go:96) and once per
iteration of the imports loop (imptree.go:109), exactly as in the Go
source. -/
def buildTreeCount (g : Graph) (m : MatchPkg) : Nat → WTask → CState → Option CState
  | 0, _, _ => none
  | Nat.succ n, WTask.visit p, c =>
      if m p then
        buildTreeCount g m n (WTask.kids p (g.imports p)) ⟨ensureNode c.bs p, bump c.calls p⟩
      else some ⟨c.bs, bump c.calls p⟩
  | Nat.succ _, WTask.kids _ [], c => some c
  | Nat.succ n, WTask.kids p (x :: cs), c =>
      if m x then
        match buildTreeCount g m n (WTask.visit x)
            ⟨addChild (addParent (ensureNode c.bs x) x p) p x, bump c.calls x⟩ with
        | none => none
        | some c1 => buildTreeCount g m n (WTask.kids p cs) c1
      else buildTreeCount g m n (WTask.kids p cs) ⟨c.bs, bump c.calls x⟩

/-- Remove every occurrence of `x` from the list, keeping the order of
the remaining entries (spec: "remove … maintaining order"). -/
def removeFrom (l : List String) (x : String) : List String :=
  l.filter (fun y => !(y == x))

def setChildren (s : BState) (x : String) (l : List String) : BState :=
  { s with children := fun y => if y = x then l else s.children y }

def setParents (s : BState) (x : String) (l : List String) : BState :=
  { s with parents := fun y => if y = x then l else s.parents y }

/-- Modelled from the spec: step 1 of `removeNodeRecursively` (§4.2),
whose Go source is absent from src/ (only its test exists).  "For every
parent `p` of `targetNode`, remove `targetNode` from `p.children`
(maintaining order of remaining entries) and remove `p` from
`targetNode.parents`"; afterwards "its `parents` collection is now
empty". -/
def step1 (s : BState) (t : String) : BState :=
  let s1 := (s.parents t).foldl
    (fun acc p => setChildren acc p (removeFrom (acc.children p) t)) s
  setParents s1 t []

/-- One pending piece of work of the removal cascade: either the whole
procedure applied to `t`, or the remainder of its loop over the
children `cs` of `t`. -/
inductive RTask where
  | rem (t : String)
  | kids (t : String) (cs : List String)

/-- Modelled from the spec: the cascade of `removeNodeRecursively`
(§4.2), whose Go source is absent from src/.  Step 3: "For each child
`c` of `targetNode`: remove `targetNode` from `c.parents`.  If this
leaves `c.parents` empty … recursively apply the same removal procedure
to `c` … If `c.parents` is still non-empty … leave the subtree of `c`
untouched."  Fuel plays the same role as in `buildTree`. -/
def removeRun : Nat → RTask → BState → Option BState
  | 0, _, _ => none
  | Nat.succ n, RTask.rem t, s =>
      let s1 := step1 s t
      removeRun n (RTask.kids t (s1.children t)) s1
  | Nat.succ _, RTask.kids _ [], s => some s
  | Nat.succ n, RTask.kids t (c :: cs), s =>
      let s1 := setParents s c (removeFrom (s.parents c) t)
      if (s1.parents c).isEmpty then
        match removeRun n (RTask.rem c) s1 with
        | none => none
        | some s2 => removeRun n (RTask.kids t cs) s2
      else removeRun n (RTask.kids t cs) s1

/-- Modelled from the spec: `removeNodeRecursively(root, target)`
(§4.2, §6), whose Go source is absent from src/.  The algorithm never
consults `root`; the parameter is kept to mirror the interface
signature `removeNodeRecursively(root: Node, target: Node)`. -/
def removeNodeRecursively (fuel : Nat) (_root : String) (s : BState) (t : String) :
    Option BState :=
  removeRun fuel (RTask.rem t) s

/-- `ImportPathFrom` from the module package (imptree repository,
second source file, lines 269-271):
`fmt.Sprintf("%s%s", moduleName, path[len(root):])`.  Go strings are
byte strings, embedded as `List Char`; `path[len(root):]` is the slice
from byte index `len(root)`, which panics (`none`) when
`len(root) > len(path)`. -/
def ImportPathFrom (path moduleName root : List Char) : Option (List Char) :=
  if root.length ≤ path.length then some (moduleName ++ path.drop root.length)
  else none

/-! ## Basic facts about the state operations -/

theorem containsNode_iff (l : List String) (x : String) :
    containsNode l x = true ↔ x ∈ l := by
  cases l with
  | nil => simp [containsNode]
  | cons a t =>
    simp only [containsNode, List.any_eq_true, beq_iff_eq]
    exact ⟨fun ⟨y, hy, e⟩ => e ▸ hy, fun h => ⟨x, h, rfl⟩⟩

/-- All three components only ever grow during the walk. -/
def Mono (s s' : BState) : Prop :=
  s.keys ⊆ s'.keys ∧ (∀ x, s.children x ⊆ s'.children x) ∧
    (∀ x, s.parents x ⊆ s'.parents x)

theorem mono_refl (s : BState) : Mono s s :=
  ⟨fun _ h => h, fun _ _ h => h, fun _ _ h => h⟩

theorem mono_trans {s1 s2 s3 : BState} (h1 : Mono s1 s2) (h2 : Mono s2 s3) :
    Mono s1 s3 :=
  ⟨fun _ h => h2.1 (h1.1 h), fun x _ h => (h2.2.1 x) ((h1.2.1 x) h),
    fun x _ h => (h2.2.2 x) ((h1.2.2 x) h)⟩

theorem ensureNode_children (s : BState) (p : String) :
    (ensureNode s p).children = s.children := by
  unfold ensureNode; split <;> rfl

theorem ensureNode_parents (s : BState) (p : String) :
    (ensureNode s p).parents = s.parents := by
  unfold ensureNode; split <;> rfl

theorem mem_ensureNode_keys (s : BState) (p x : String) :
    x ∈ (ensureNode s p).keys ↔ x ∈ s.keys ∨ x = p := by
  unfold ensureNode
  split
  · rename_i h
    constructor
    · exact Or.inl
    · rintro (hx | rfl)
      · exact hx
      · exact h
  · simp

theorem ensureNode_keys_sub (s : BState) (p : String) : s.keys ⊆ (ensureNode s p).keys := by
  intro x hx; exact (mem_ensureNode_keys s p x).2 (Or.inl hx)

theorem self_mem_ensureNode_keys (s : BState) (p : String) : p ∈ (ensureNode s p).keys :=
  (mem_ensureNode_keys s p p).2 (Or.inr rfl)

theorem ensureNode_keys_nodup (s : BState) (p : String) (h : s.keys.Nodup) :
    (ensureNode s p).keys.Nodup := by
  unfold ensureNode
  split
  · exact h
  · rename_i hp
    simpa [List.nodup_append] using ⟨h, hp⟩

theorem ensureNode_mono (s : BState) (p : String) : Mono s (ensureNode s p) :=
  ⟨ensureNode_keys_sub s p,
    fun x => by rw [ensureNode_children]; exact fun _ h => h,
    fun x => by rw [ensureNode_parents]; exact fun _ h => h⟩

theorem addParent_children (s : BState) (c p : String) :
    (addParent s c p).children = s.children := by
  unfold addParent; split <;> rfl

theorem addParent_keys (s : BState) (c p : String) :
    (addParent s c p).keys = s.keys := by
  unfold addParent; split <;> rfl

theorem mem_addParent_parents (s : BState) (c p y q : String) :
    q ∈ (addParent s c p).parents y ↔ q ∈ s.parents y ∨ (y = c ∧ q = p) := by
  unfold addParent
  split
  · rename_i h
    rw [containsNode_iff] at h
    constructor
    · exact Or.inl
    · rintro (hq | ⟨rfl, rfl⟩)
      · exact hq
      · exact h
  · rename_i h
    rw [containsNode_iff] at h
    simp only [BState.parents]
    by_cases hy : y = c
    · subst hy; simp [List.mem_append]
    · simp [hy]

theorem addParent_parents_nodup (s : BState) (c p : String)
    (h : ∀ x, (s.parents x).Nodup) : ∀ x, ((addParent s c p).parents x).Nodup := by
  intro x
  unfold addParent
  split
  · exact h x
  · rename_i hc
    rw [containsNode_iff] at hc
    simp only [BState.parents]
    by_cases hx : x = c
    · simp only [if_pos hx]
      simpa [List.nodup_append] using ⟨h c, hc ∘ (hx ▸ ·)⟩
    · simp only [if_neg hx]; exact h x

theorem addChild_parents (s : BState) (p c : String) :
    (addChild s p c).parents = s.parents := by
  unfold addChild; split <;> rfl

theorem addChild_keys (s : BState) (p c : String) :
    (addChild s p c).keys = s.keys := by
  unfold addChild; split <;> rfl

theorem mem_addChild_children (s : BState) (p c y x : String) :
    x ∈ (addChild s p c).children y ↔ x ∈ s.children y ∨ (y = p ∧ x = c) := by
  unfold addChild
  split
  · rename_i h
    rw [containsNode_iff] at h
    constructor
    · exact Or.inl
    · rintro (hx | ⟨rfl, rfl⟩)
      · exact hx
      · exact h
  · rename_i h
    rw [containsNode_iff] at h
    simp only [BState.children]
    by_cases hy : y = p
    · subst hy; simp [List.mem_append]
    · simp [hy]

theorem addChild_children_nodup (s : BState) (p c : String)
    (h : ∀ x, (s.children x).Nodup) : ∀ x, ((addChild s p c).children x).Nodup := by
  intro x
  unfold addChild
  split
  · exact h x
  · rename_i hc
    rw [containsNode_iff] at hc
    simp only [BState.children]
    by_cases hx : x = p
    · simp only [if_pos hx]
      simpa [List.nodup_append] using ⟨h p, hc ∘ (hx ▸ ·)⟩
    · simp only [if_neg hx]; exact h x

/-! ## The matched-import relation and the graph invariants -/

/-- One matched import edge: both endpoints pass the predicate and `y`
is among the imports of `x`. The walk recurses exactly along these
edges. -/
def MStep (g : Graph) (m : MatchPkg) (x y : String) : Prop :=
  m x = true ∧ m y = true ∧ y ∈ g.imports x

/-- Reachability along matched import edges. -/
def Reach (g : Graph) (m : MatchPkg) : String → String → Prop :=
  Relation.ReflTransGen (MStep g m)

/-- `c ∈ p.Children` iff `p ∈ c.Parents` (spec §3, §8). -/
def SymB (s : BState) : Prop :=
  ∀ p c, c ∈ s.children p ↔ p ∈ s.parents c

/-- No duplicates (by identity) within the lists of any node (spec §3). -/
def NodupCP (s : BState) : Prop :=
  ∀ x, (s.children x).Nodup ∧ (s.parents x).Nodup

/-- Every recorded child edge is a matched import edge discovered at a
node reachable from the start of the walk, and joins materialized nodes. -/
def ChildSound (g : Graph) (m : MatchPkg) (r : String) (s : BState) : Prop :=
  ∀ p c, c ∈ s.children p →
    m p = true ∧ m c = true ∧ c ∈ g.imports p ∧ Reach g m r p ∧ p ∈ s.keys ∧ c ∈ s.keys

/-- Every materialized node passed the predicate and is reachable from
the start of the walk along matched edges. -/
def KeysSound (g : Graph) (m : MatchPkg) (r : String) (s : BState) : Prop :=
  ∀ x ∈ s.keys, m x = true ∧ Reach g m r x

/-- Every materialized node other than the start has at least one
parent. -/
def ParentsNe (r : String) (s : BState) : Prop :=
  ∀ x ∈ s.keys, x ≠ r → s.parents x ≠ []

/-- The conjunction of all state invariants of the walk rooted at `r`. -/
def InvB (g : Graph) (m : MatchPkg) (r : String) (s : BState) : Prop :=
  SymB s ∧ s.keys.Nodup ∧ NodupCP s ∧ ChildSound g m r s ∧ KeysSound g m r s ∧
    ParentsNe r s

theorem Inv_emptyState (g : Graph) (m : MatchPkg) (r : String) :
    InvB g m r emptyState := by
  refine ⟨fun p c => by simp [emptyState], by simp [emptyState], fun x => by simp [emptyState],
    fun p c h => by simp [emptyState] at h, fun x h => by simp [emptyState] at h,
    fun x h => by simp [emptyState] at h⟩

theorem ne_nil_of_subset {l l' : List String} (h : l ⊆ l') (hne : l ≠ []) : l' ≠ [] := by
  obtain ⟨a, ha⟩ := List.exists_mem_of_ne_nil l hne
  exact List.ne_nil_of_mem (h ha)

/-- A node that is not materialized has no recorded parents. -/
theorem noKey_noParents {g : Graph} {m : MatchPkg} {r : String} {s : BState}
    (hs : SymB s) (hcs : ChildSound g m r s) {c : String} (hc : c ∉ s.keys) :
    s.parents c = [] := by
  by_contra hne
  obtain ⟨q, hq⟩ := List.exists_mem_of_ne_nil _ hne
  exact hc ((hcs q c ((hs q c).2 hq)).2.2.2.2.2)

/-- A node that is not materialized has no recorded children. -/
theorem noKey_noChildren {g : Graph} {m : MatchPkg} {r : String} {s : BState}
    (hcs : ChildSound g m r s) {p : String} (hp : p ∉ s.keys) :
    s.children p = [] := by
  by_contra hne
  obtain ⟨c, hc⟩ := List.exists_mem_of_ne_nil _ hne
  exact hp (hcs p c hc).2.2.2.2.1

/-! ## Preservation of the invariants by one walk step -/

/-- The state update performed for one matched import `c` of `p`
(imptree.go:113-127): reuse-or-create the child node, then add the
parent edge and the child edge, each unless already present. -/
def kidsStep (s : BState) (p c : String) : BState :=
  addChild (addParent (ensureNode s c) c p) p c

theorem kidsStep_keys_mem (s : BState) (p c x : String) :
    x ∈ (kidsStep s p c).keys ↔ x ∈ s.keys ∨ x = c := by
  unfold kidsStep
  rw [addChild_keys, addParent_keys, mem_ensureNode_keys]

theorem kidsStep_children_mem (s : BState) (p c y x : String) :
    x ∈ (kidsStep s p c).children y ↔ x ∈ s.children y ∨ (y = p ∧ x = c) := by
  unfold kidsStep
  rw [mem_addChild_children, addParent_children, ensureNode_children]

theorem kidsStep_parents_mem (s : BState) (p c y q : String) :
    q ∈ (kidsStep s p c).parents y ↔ q ∈ s.parents y ∨ (y = c ∧ q = p) := by
  unfold kidsStep
  rw [addChild_parents, mem_addParent_parents, ensureNode_parents]

theorem kidsStep_mono (s : BState) (p c : String) : Mono s (kidsStep s p c) :=
  ⟨fun x hx => (kidsStep_keys_mem s p c x).2 (Or.inl hx),
    fun y x hx => (kidsStep_children_mem s p c y x).2 (Or.inl hx),
    fun y q hq => (kidsStep_parents_mem s p c y q).2 (Or.inl hq)⟩

theorem kidsStep_inv (g : Graph) (m : MatchPkg) (r : String) {s : BState} {p c : String}
    (hI : InvB g m r s) (hmp : m p = true) (hmc : m c = true) (hpk : p ∈ s.keys)
    (hrp : Reach g m r p) (hci : c ∈ g.imports p) :
    InvB g m r (kidsStep s p c) ∧ p ∈ (kidsStep s p c).keys ∧ c ∈ (kidsStep s p c).keys ∧
      c ∈ (kidsStep s p c).children p ∧ p ∈ (kidsStep s p c).parents c ∧
      Reach g m r c ∧ (∀ x ∈ (kidsStep s p c).keys, x ∉ s.keys → x = c) := by
  obtain ⟨hsym, hknd, hcp, hcs, hks, hpn⟩ := hI
  have hrc : Reach g m r c := Relation.ReflTransGen.tail hrp ⟨hmp, hmc, hci⟩
  have hkeys : ∀ x, x ∈ (kidsStep s p c).keys ↔ x ∈ s.keys ∨ x = c :=
    kidsStep_keys_mem s p c
  have hpk2 : p ∈ (kidsStep s p c).keys := (hkeys p).2 (Or.inl hpk)
  have hck2 : c ∈ (kidsStep s p c).keys := (hkeys c).2 (Or.inr rfl)
  refine ⟨⟨?_, ?_, ?_, ?_, ?_, ?_⟩, hpk2, hck2,
    (kidsStep_children_mem s p c p c).2 (Or.inr ⟨rfl, rfl⟩),
    (kidsStep_parents_mem s p c c p).2 (Or.inr ⟨rfl, rfl⟩), hrc, ?_⟩
  · -- SymB
    intro y x
    rw [kidsStep_children_mem, kidsStep_parents_mem, hsym y x]
    tauto
  · -- keys nodup
    show (addChild (addParent (ensureNode s c) c p) p c).keys.Nodup
    rw [addChild_keys, addParent_keys]
    exact ensureNode_keys_nodup s c hknd
  · -- children/parents nodup
    intro x
    constructor
    · exact addChild_children_nodup _ p c
        (fun y => by rw [addParent_children, ensureNode_children]; exact (hcp y).1) x
    · show ((addChild (addParent (ensureNode s c) c p) p c).parents x).Nodup
      rw [addChild_parents]
      exact addParent_parents_nodup _ c p
        (fun y => by rw [ensureNode_parents]; exact (hcp y).2) x
  · -- ChildSound
    intro y x hx
    rcases (kidsStep_children_mem s p c y x).1 hx with hold | ⟨rfl, rfl⟩
    · obtain ⟨h1, h2, h3, h4, h5, h6⟩ := hcs y x hold
      exact ⟨h1, h2, h3, h4, (hkeys y).2 (Or.inl h5), (hkeys x).2 (Or.inl h6)⟩
    · exact ⟨hmp, hmc, hci, hrp, hpk2, hck2⟩
  · -- KeysSound
    intro x hx
    rcases (hkeys x).1 hx with hold | rfl
    · exact hks x hold
    · exact ⟨hmc, hrc⟩
  · -- ParentsNe
    intro x hx hxr
    by_cases hxk : x ∈ s.keys
    · exact ne_nil_of_subset
        (fun q hq => (kidsStep_parents_mem s p c x q).2 (Or.inl hq)) (hpn x hxk hxr)
    · have hxc : x = c := by
        rcases (hkeys x).1 hx with h | h
        · exact absurd h hxk
        · exact h
      exact List.ne_nil_of_mem ((kidsStep_parents_mem s p c x p).2 (Or.inr ⟨hxc, rfl⟩))
  · -- new keys are exactly c
    intro x hx hxk
    rcases (hkeys x).1 hx with h | h
    · exact absurd h hxk
    · exact h

theorem ensure_visit_inv (g : Graph) (m : MatchPkg) (r : String) {s : BState} {p : String}
    (hI : InvB g m r s) (hpr : p ∈ s.keys ∨ p = r) (hmp : m p = true)
    (hrp : Reach g m r p) :
    InvB g m r (ensureNode s p) ∧ p ∈ (ensureNode s p).keys ∧
      (∀ x ∈ (ensureNode s p).keys, x ∉ s.keys → x = p) := by
  obtain ⟨hsym, hknd, hcp, hcs, hks, hpn⟩ := hI
  have hch := ensureNode_children s p
  have hpa := ensureNode_parents s p
  refine ⟨⟨?_, ensureNode_keys_nodup s p hknd, ?_, ?_, ?_, ?_⟩,
    self_mem_ensureNode_keys s p, ?_⟩
  · intro y x; rw [hch, hpa]; exact hsym y x
  · intro x; rw [hch, hpa]; exact hcp x
  · intro y x hx
    rw [hch] at hx
    obtain ⟨h1, h2, h3, h4, h5, h6⟩ := hcs y x hx
    exact ⟨h1, h2, h3, h4, ensureNode_keys_sub s p h5, ensureNode_keys_sub s p h6⟩
  · intro x hx
    rcases (mem_ensureNode_keys s p x).1 hx with h | rfl
    · exact hks x h
    · exact ⟨hmp, hrp⟩
  · intro x hx hxr
    rw [hpa]
    rcases (mem_ensureNode_keys s p x).1 hx with h | rfl
    · exact hpn x h hxr
    · rcases hpr with h | rfl
      · exact hpn x h hxr
      · exact absurd rfl hxr
  · intro x hx hxk
    rcases (mem_ensureNode_keys s p x).1 hx with h | h
    · exact absurd h hxk
    · exact h

/-! ## The master invariant of the recursive walk -/

/-- The imports loop of `x` has been completed at least once: every
matched import of `x` is materialized and recorded among the children
of `x`. -/
def Done (g : Graph) (m : MatchPkg) (s : BState) (x : String) : Prop :=
  ∀ c ∈ g.imports x, m c = true → c ∈ s.keys ∧ c ∈ s.children x

theorem Done_mono {g : Graph} {m : MatchPkg} {s s' : BState} (hm : Mono s s')
    {x : String} (h : Done g m s x) : Done g m s' x := by
  intro c hc hmc
  obtain ⟨h1, h2⟩ := h c hc hmc
  exact ⟨hm.1 h1, hm.2.1 x h2⟩

/-- Every node materialized during a (sub-)walk leaves that walk with a
completed imports loop. -/
def NewDone (g : Graph) (m : MatchPkg) (s s' : BState) : Prop :=
  ∀ x ∈ s'.keys, x ∉ s.keys → Done g m s' x

/-- Precondition of one task of the walk rooted at `r`. -/
def TaskPre (g : Graph) (m : MatchPkg) (r : String) : WTask → BState → Prop
  | WTask.visit p, s => (p ∈ s.keys ∨ p = r) ∧ (m p = true → Reach g m r p)
  | WTask.kids p cs, s =>
      m p = true ∧ p ∈ s.keys ∧ Reach g m r p ∧ ∀ c ∈ cs, c ∈ g.imports p

/-- Postcondition of one task of the walk. -/
def TaskPost (g : Graph) (m : MatchPkg) : WTask → BState → BState → Prop
  | WTask.visit p, s, s' =>
      (m p = true → p ∈ s'.keys ∧ Done g m s' p) ∧ (m p = false → s' = s)
  | WTask.kids p cs, _, s' =>
      ∀ c ∈ cs, m c = true → c ∈ s'.keys ∧ c ∈ s'.children p ∧ p ∈ s'.parents c

/-- Master soundness of the walk: a finished (sub-)walk grows the state
monotonically, preserves all invariants, and establishes the task
postcondition above. -/
theorem buildTree_inv (g : Graph) (m : MatchPkg) (r : String) :
    ∀ n t s s', buildTree g m n t s = some s' → InvB g m r s → TaskPre g m r t s →
      Mono s s' ∧ InvB g m r s' ∧ TaskPost g m t s s' ∧ NewDone g m s s' := by
  intro n
  induction n with
  | zero =>
    intro t s s' h
    simp [buildTree] at h
  | succ n ih =>
    intro t s s' h hI hpre
    match t with
    | WTask.visit p =>
      simp only [buildTree] at h
      by_cases hm : m p = true
      · rw [if_pos hm] at h
        obtain ⟨hIe, hpke, hnewe⟩ := ensure_visit_inv g m r hI hpre.1 hm (hpre.2 hm)
        obtain ⟨hmono, hI', hpost, hnew⟩ := ih (WTask.kids p (g.imports p)) _ s' h hIe
          ⟨hm, hpke, hpre.2 hm, fun c hc => hc⟩
        refine ⟨mono_trans (ensureNode_mono s p) hmono, hI', ⟨?_, ?_⟩, ?_⟩
        · intro _
          refine ⟨hmono.1 hpke, ?_⟩
          intro c hc hmc
          exact ⟨(hpost c hc hmc).1, (hpost c hc hmc).2.1⟩
        · intro hf
          rw [hf] at hm
          exact absurd hm (by simp)
        · intro x hx hxs
          by_cases hxe : x ∈ (ensureNode s p).keys
          · have hxp : x = p := hnewe x hxe hxs
            subst hxp
            intro c hc hmc
            exact ⟨(hpost c hc hmc).1, (hpost c hc hmc).2.1⟩
          · exact hnew x hx hxe
      · rw [if_neg hm] at h
        obtain rfl : s = s' := by injection h
        refine ⟨mono_refl s, hI, ⟨fun ht => absurd ht hm, fun _ => rfl⟩, ?_⟩
        intro x hx hxs
        exact absurd hx hxs
    | WTask.kids p [] =>
      simp only [buildTree] at h
      obtain rfl : s = s' := by injection h
      refine ⟨mono_refl s, hI, ?_, ?_⟩
      · intro c hc
        exact absurd hc (List.not_mem_nil c)
      · intro x hx hxs
        exact absurd hx hxs
    | WTask.kids p (c :: cs) =>
      obtain ⟨hmp, hpk, hrp, himp⟩ := hpre
      simp only [buildTree] at h
      by_cases hmc : m c = true
      · rw [if_pos hmc] at h
        have hksr : addChild (addParent (ensureNode s c) c p) p c = kidsStep s p c := rfl
        rw [hksr] at h
        obtain ⟨hI2, hpk2, hck2, hcc2, hpc2, hrc, hnew2⟩ :=
          kidsStep_inv g m r hI hmp hmc hpk hrp (himp c (List.mem_cons_self c cs))
        rcases hrec : buildTree g m n (WTask.visit c) (kidsStep s p c) with _ | s3
        · rw [hrec] at h
          exact absurd h (by simp)
        · rw [hrec] at h
          obtain ⟨hmono1, hI3, hpost1, hnewd1⟩ := ih (WTask.visit c) _ s3 hrec hI2
            ⟨Or.inl hck2, fun _ => hrc⟩
          obtain ⟨hmono2, hI', hpost2, hnewd2⟩ := ih (WTask.kids p cs) s3 s' h hI3
            ⟨hmp, hmono1.1 ((kidsStep_mono s p c).1 hpk), hrp,
              fun c' hc' => himp c' (List.mem_cons_of_mem c hc')⟩
          have hmono12 : Mono (kidsStep s p c) s' := mono_trans hmono1 hmono2
          refine ⟨mono_trans (kidsStep_mono s p c) hmono12, hI', ?_, ?_⟩
          · intro c' hc' hmc'
            rcases List.mem_cons.1 hc' with rfl | hc'tail
            · exact ⟨hmono12.1 hck2, hmono12.2.1 p hcc2, hmono12.2.2 c' hpc2⟩
            · exact hpost2 c' hc'tail hmc'
          · intro x hx hxs
            by_cases hx3 : x ∈ s3.keys
            · by_cases hx2 : x ∈ (kidsStep s p c).keys
              · have hxc : x = c := hnew2 x hx2 hxs
                subst hxc
                have hdone3 : Done g m s3 x := ((hpost1.1) hmc).2
                exact Done_mono hmono2 hdone3
              · exact Done_mono hmono2 (hnewd1 x hx3 hx2)
            · exact hnewd2 x hx hx3
      · rw [if_neg hmc] at h
        obtain ⟨hmono, hI', hpost, hnew⟩ := ih (WTask.kids p cs) s s' h hI
          ⟨hmp, hpk, hrp, fun c' hc' => himp c' (List.mem_cons_of_mem c hc')⟩
        refine ⟨hmono, hI', ?_, hnew⟩
        intro c' hc' hmc'
        rcases List.mem_cons.1 hc' with rfl | hc'tail
        · exact absurd hmc' hmc
        · exact hpost c' hc'tail hmc'

/-! ## Divergence of the walk on reachable matched cycles -/

/-- `p` passes the predicate and can reach a matched import cycle: this
is exactly the situation in which `buildTree(p, …)` never returns,
because the Go code recurses into every matched import unconditionally
(imptree.go:129), with no check of the already-materialized map. -/
def Diverges (g : Graph) (m : MatchPkg) (p : String) : Prop :=
  m p = true ∧ ∃ q, Reach g m p q ∧ Relation.TransGen (MStep g m) q q

theorem div_step {g : Graph} {m : MatchPkg} {p : String} (h : Diverges g m p) :
    ∃ c, c ∈ g.imports p ∧ m c = true ∧ Diverges g m c := by
  obtain ⟨hmp, q, hpq, hcyc⟩ := h
  rcases Relation.ReflTransGen.cases_head hpq with rfl | ⟨z, hz, hzq⟩
  · obtain ⟨b, hpb, hbp⟩ := (Relation.TransGen.head'_iff).1 hcyc
    exact ⟨b, hpb.2.2, hpb.2.1, hpb.2.1, p, hbp, hcyc⟩
  · exact ⟨z, hz.2.2, hz.2.1, hz.2.1, q, hzq, hcyc⟩

/-- The walk runs out of any amount of fuel when started at a unit that
leads to a matched import cycle: the Go recursion never terminates. -/
theorem buildTree_div (g : Graph) (m : MatchPkg) : ∀ n : Nat,
    (∀ p s, Diverges g m p → buildTree g m n (WTask.visit p) s = none) ∧
    (∀ p cs s, (∃ c ∈ cs, m c = true ∧ Diverges g m c) →
      buildTree g m n (WTask.kids p cs) s = none) := by
  intro n
  induction n with
  | zero => exact ⟨fun _ _ _ => rfl, fun _ _ _ _ => rfl⟩
  | succ n ih =>
    constructor
    · intro p s hdiv
      simp only [buildTree]
      rw [if_pos hdiv.1]
      exact ih.2 p (g.imports p) _ (div_step hdiv)
    · intro p cs s hex
      cases cs with
      | nil =>
        obtain ⟨c, hc, _⟩ := hex
        exact absurd hc (List.not_mem_nil c)
      | cons c cs =>
        simp only [buildTree]
        obtain ⟨c', hc', hm', hd'⟩ := hex
        by_cases hmc : m c = true
        · rw [if_pos hmc]
          have hksr : addChild (addParent (ensureNode s c) c p) p c = kidsStep s p c := rfl
          rw [hksr]
          rcases List.mem_cons.1 hc' with rfl | htail
          · rw [ih.1 c' (kidsStep s p c') hd']
          · rcases hrec : buildTree g m n (WTask.visit c) (kidsStep s p c) with _ | s3
            · rfl
            · exact ih.2 p cs s3 ⟨c', htail, hm', hd'⟩
        · rw [if_neg hmc]
          rcases List.mem_cons.1 hc' with rfl | htail
          · exact absurd hm' hmc
          · exact ih.2 p cs s ⟨c', htail, hm', hd'⟩

/-! ## Termination and soundness of the root-location loop -/

/-- One upward step of the root-location loop: `b` is among the parents
of `a`. -/
def Up (s : BState) (a b : String) : Prop := b ∈ s.parents a

theorem findRoot_some_parents {s : BState} :
    ∀ n x y, findRoot s n x = some y → s.parents y = [] := by
  intro n
  induction n with
  | zero => intro x y h; simp [findRoot] at h
  | succ n ih =>
    intro x y h
    simp only [findRoot] at h
    rcases hpx : s.parents x with _ | ⟨p, ps⟩
    · rw [hpx] at h
      obtain rfl : x = y := by injection h
      exact hpx
    · rw [hpx] at h
      exact ih p y h

theorem findRoot_some_mem {s : BState} (hPK : ∀ x q, q ∈ s.parents x → q ∈ s.keys) :
    ∀ n x y, x ∈ s.keys → findRoot s n x = some y → y ∈ s.keys := by
  intro n
  induction n with
  | zero => intro x y _ h; simp [findRoot] at h
  | succ n ih =>
    intro x y hx h
    simp only [findRoot] at h
    rcases hpx : s.parents x with _ | ⟨p, ps⟩
    · rw [hpx] at h
      obtain rfl : x = y := by injection h
      exact hx
    · rw [hpx] at h
      exact ih p y (hPK x p (by rw [hpx]; exact List.mem_cons_self p ps)) h

/-- Pigeonhole argument: in the absence of upward cycles the
`node = node.Parents[0]` loop terminates from any materialized node. -/
theorem chase_aux {s : BState} (hPK : ∀ x q, q ∈ s.parents x → q ∈ s.keys)
    (hNoCyc : ∀ x ∈ s.keys, ¬ Relation.TransGen (Up s) x x) :
    ∀ (k : Nat) (seen : List String) (x : String),
      x ∈ s.keys → x ∉ seen → seen.Nodup → (∀ y ∈ seen, y ∈ s.keys) →
      (∀ y ∈ seen, Relation.TransGen (Up s) y x) →
      s.keys.length ≤ k + seen.length →
      ∃ n y, findRoot s n x = some y := by
  intro k
  induction k with
  | zero =>
    intro seen x hx hxseen hnd hsub _ hlen
    exfalso
    have hsubf : seen.toFinset ⊆ s.keys.toFinset := by
      intro a ha
      rw [List.mem_toFinset] at ha ⊢
      exact hsub a ha
    have hcard : s.keys.toFinset.card ≤ seen.toFinset.card := by
      calc s.keys.toFinset.card ≤ s.keys.length := List.toFinset_card_le s.keys
        _ ≤ 0 + seen.length := hlen
        _ = seen.length := by ring
        _ = seen.toFinset.card := (List.toFinset_card_of_nodup hnd).symm
    have heq := Finset.eq_of_subset_of_card_le hsubf hcard
    have hxs : x ∈ seen.toFinset := by
      rw [heq, List.mem_toFinset]
      exact hx
    rw [List.mem_toFinset] at hxs
    exact hxseen hxs
  | succ k ih =>
    intro seen x hx hxseen hnd hsub hchain hlen
    rcases hpx : s.parents x with _ | ⟨p, ps⟩
    · exact ⟨1, x, by simp [findRoot, hpx]⟩
    · have hpmem : p ∈ s.parents x := by rw [hpx]; exact List.mem_cons_self p ps
      have hup : Up s x p := hpmem
      have hpk : p ∈ s.keys := hPK x p hpmem
      have hpnew : p ∉ x :: seen := by
        intro hmem
        rcases List.mem_cons.1 hmem with rfl | hpseen
        · exact hNoCyc p hpk (Relation.TransGen.single hup)
        · exact hNoCyc p hpk (Relation.TransGen.tail (hchain p hpseen) hup)
      obtain ⟨n, y, hn⟩ := ih (x :: seen) p hpk hpnew
        (List.nodup_cons.2 ⟨hxseen, hnd⟩)
        (fun y hy => by
          rcases List.mem_cons.1 hy with rfl | h
          · exact hx
          · exact hsub y h)
        (fun y hy => by
          rcases List.mem_cons.1 hy with rfl | h
          · exact Relation.TransGen.single hup
          · exact Relation.TransGen.tail (hchain y h) hup)
        (by
          have h1 : (x :: seen).length = seen.length + 1 := rfl
          omega)
      refine ⟨n + 1, y, ?_⟩
      simp only [findRoot]
      rw [hpx]
      exact hn

/-! ## Consequences for a completed top-level walk -/

theorem built_state_inv {g : Graph} {m : MatchPkg} {r : String} {fuel : Nat} {s' : BState}
    (hb : buildTree g m fuel (WTask.visit r) emptyState = some s') :
    InvB g m r s' ∧ (m r = true → r ∈ s'.keys ∧ Done g m s' r) ∧
      (m r = false → s' = emptyState) ∧ NewDone g m emptyState s' := by
  obtain ⟨_, hI, hpost, hnew⟩ := buildTree_inv g m r fuel (WTask.visit r) emptyState s' hb
    (Inv_emptyState g m r) ⟨Or.inr rfl, fun _ => Relation.ReflTransGen.refl⟩
  exact ⟨hI, hpost.1, hpost.2, hnew⟩

theorem built_not_diverges {g : Graph} {m : MatchPkg} {r : String} {fuel : Nat} {s' : BState}
    (hb : buildTree g m fuel (WTask.visit r) emptyState = some s') :
    ¬ Diverges g m r := by
  intro hdiv
  rw [(buildTree_div g m fuel).1 r emptyState hdiv] at hb
  exact absurd hb (by simp)

/-- On a completed walk the start node has no parents: a recorded
parent of `r` would exhibit a matched import cycle through `r`, on
which the walk could not have terminated. -/
theorem built_parents_root {g : Graph} {m : MatchPkg} {r : String} {fuel : Nat} {s' : BState}
    (hb : buildTree g m fuel (WTask.visit r) emptyState = some s') (hmr : m r = true) :
    s'.parents r = [] := by
  obtain ⟨⟨hsym, _, _, hcs, hks, _⟩, _, _, _⟩ := built_state_inv hb
  by_contra hne
  obtain ⟨q, hq⟩ := List.exists_mem_of_ne_nil _ hne
  have hrc : r ∈ s'.children q := (hsym q r).2 hq
  obtain ⟨hmq, hmr', hri, hrq, _, _⟩ := hcs q r hrc
  exact built_not_diverges hb
    ⟨hmr, r, Relation.ReflTransGen.refl, Relation.TransGen.tail' hrq ⟨hmq, hmr', hri⟩⟩

/-- On a completed walk there is no cycle in the parent relation. -/
theorem built_no_upcycle {g : Graph} {m : MatchPkg} {r : String} {fuel : Nat} {s' : BState}
    (hb : buildTree g m fuel (WTask.visit r) emptyState = some s') (hmr : m r = true) :
    ∀ x ∈ s'.keys, ¬ Relation.TransGen (Up s') x x := by
  obtain ⟨⟨hsym, _, _, hcs, hks, _⟩, _, _, _⟩ := built_state_inv hb
  intro x hx hTG
  have hswap : Relation.TransGen (Function.swap (MStep g m)) x x := by
    refine Relation.TransGen.mono ?_ hTG
    intro a b hab
    have hac : a ∈ s'.children b := (hsym b a).2 hab
    obtain ⟨hmb, hma, hai, _, _, _⟩ := hcs b a hac
    exact ⟨hmb, hma, hai⟩
  have hcyc : Relation.TransGen (MStep g m) x x := Relation.transGen_swap.1 hswap
  exact built_not_diverges hb ⟨hmr, x, (hks x hx).2, hcyc⟩

theorem built_parents_in_keys {g : Graph} {m : MatchPkg} {r : String} {fuel : Nat}
    {s' : BState}
    (hb : buildTree g m fuel (WTask.visit r) emptyState = some s') :
    ∀ x q, q ∈ s'.parents x → q ∈ s'.keys := by
  obtain ⟨⟨hsym, _, _, hcs, _, _⟩, _, _, _⟩ := built_state_inv hb
  intro x q hq
  exact (hcs q x ((hsym q x).2 hq)).2.2.2.2.1

/-! ## Predicate evaluation counting -/

theorem bump_le (k : String → Nat) (x y : String) : k y ≤ bump k x y := by
  unfold bump
  split <;> omega

theorem bump_self (k : String → Nat) (x : String) : 1 ≤ bump k x x := by
  unfold bump
  rw [if_pos rfl]
  omega

/-- Every materialized unit has had the predicate evaluated on it at
least once (in fact it is evaluated at every rediscovery). -/
theorem buildTreeCount_ge1 (g : Graph) (m : MatchPkg) :
    ∀ n t c c', buildTreeCount g m n t c = some c' →
      (∀ y ∈ c.bs.keys, 1 ≤ c.calls y) → ∀ y ∈ c'.bs.keys, 1 ≤ c'.calls y := by
  intro n
  induction n with
  | zero =>
    intro t c c' h
    simp [buildTreeCount] at h
  | succ n ih =>
    intro t c c' h hP
    match t with
    | WTask.visit p =>
      simp only [buildTreeCount] at h
      by_cases hm : m p = true
      · rw [if_pos hm] at h
        refine ih _ _ _ h ?_
        intro y hy
        rcases (mem_ensureNode_keys c.bs p y).1 hy with hold | rfl
        · exact le_trans (hP y hold) (bump_le c.calls p y)
        · exact bump_self c.calls y
      · rw [if_neg hm] at h
        obtain rfl : (⟨c.bs, bump c.calls p⟩ : CState) = c' := by injection h
        intro y hy
        exact le_trans (hP y hy) (bump_le c.calls p y)
    | WTask.kids p [] =>
      simp only [buildTreeCount] at h
      obtain rfl : c = c' := by injection h
      exact hP
    | WTask.kids p (x :: cs) =>
      simp only [buildTreeCount] at h
      by_cases hm : m x = true
      · rw [if_pos hm] at h
        rcases hrec : buildTreeCount g m n (WTask.visit x)
            ⟨addChild (addParent (ensureNode c.bs x) x p) p x, bump c.calls x⟩ with _ | c3
        · rw [hrec] at h
          exact absurd h (by simp)
        · rw [hrec] at h
          refine ih _ _ _ h (ih _ _ _ hrec ?_)
          intro y hy
          have hy' : y ∈ (kidsStep c.bs p x).keys := hy
          rcases (kidsStep_keys_mem c.bs p x y).1 hy' with hold | rfl
          · exact le_trans (hP y hold) (bump_le c.calls x y)
          · exact bump_self c.calls y
      · rw [if_neg hm] at h
        refine ih _ _ _ h ?_
        intro y hy
        exact le_trans (hP y hy) (bump_le c.calls x y)

/-- A unit failing the predicate is a terminator: visiting it evaluates
the predicate on it once more and changes no graph state at all. -/
theorem buildTreeCount_terminator (g : Graph) (m : MatchPkg) {u : String}
    (hu : m u = false) :
    ∀ n c, 1 ≤ n →
      buildTreeCount g m n (WTask.visit u) c = some ⟨c.bs, bump c.calls u⟩ := by
  intro n c hn
  obtain ⟨n', rfl⟩ : ∃ n', n = n' + 1 := ⟨n - 1, by omega⟩
  simp only [buildTreeCount]
  rw [if_neg (by rw [hu]; simp)]

/-- The uninstrumented statement of the same fact, for the walk itself
(imptree.go:96-98): a non-matching unit is not added and its imports
are not traversed. -/
theorem buildTree_terminator (g : Graph) (m : MatchPkg) {u : String} (hu : m u = false) :
    ∀ n s, 1 ≤ n → buildTree g m n (WTask.visit u) s = some s := by
  intro n s hn
  obtain ⟨n', rfl⟩ : ∃ n', n = n' + 1 := ⟨n - 1, by omega⟩
  simp only [buildTree]
  rw [if_neg (by rw [hu]; simp)]

/-! ## Basic facts about the removal operations -/

theorem setChildren_children (s : BState) (x : String) (l : List String) (y : String) :
    (setChildren s x l).children y = if y = x then l else s.children y := rfl

theorem setChildren_parents (s : BState) (x : String) (l : List String) :
    (setChildren s x l).parents = s.parents := rfl

theorem setChildren_keys (s : BState) (x : String) (l : List String) :
    (setChildren s x l).keys = s.keys := rfl

theorem setParents_parents (s : BState) (x : String) (l : List String) (y : String) :
    (setParents s x l).parents y = if y = x then l else s.parents y := rfl

theorem setParents_children (s : BState) (x : String) (l : List String) :
    (setParents s x l).children = s.children := rfl

theorem setParents_keys (s : BState) (x : String) (l : List String) :
    (setParents s x l).keys = s.keys := rfl

theorem setParents_eq_self {s : BState} {x : String} {l : List String}
    (h : s.parents x = l) : setParents s x l = s := by
  cases s with
  | mk keys children parents =>
    unfold setParents
    simp only [BState.mk.injEq, true_and]
    funext y
    by_cases hy : y = x
    · rw [if_pos hy, hy]
      exact h.symm
    · rw [if_neg hy]

theorem removeFrom_subset (l : List String) (x : String) : removeFrom l x ⊆ l :=
  (List.filter_sublist l).subset

theorem mem_removeFrom {l : List String} {x y : String} :
    y ∈ removeFrom l x ↔ y ∈ l ∧ y ≠ x := by
  unfold removeFrom
  rw [List.mem_filter]
  simp [beq_iff_eq]

theorem not_mem_removeFrom (l : List String) (x : String) : x ∉ removeFrom l x := by
  intro h
  exact (mem_removeFrom.1 h).2 rfl

theorem removeFrom_eq_self {l : List String} {x : String} (h : x ∉ l) :
    removeFrom l x = l := by
  unfold removeFrom
  rw [List.filter_eq_self]
  intro a ha
  simp only [Bool.not_eq_eq_eq_not, Bool.not_true, beq_eq_false_iff_ne, ne_eq]
  intro rfl_eq
  exact h (rfl_eq ▸ ha)

theorem removeFrom_idem (l : List String) (x : String) :
    removeFrom (removeFrom l x) x = removeFrom l x :=
  removeFrom_eq_self (not_mem_removeFrom l x)

theorem isEmpty_eq_false_of_ne_nil {l : List String} (h : l ≠ []) : l.isEmpty = false := by
  cases l with
  | nil => exact absurd rfl h
  | cons a t => rfl

/-- Effect of the loop of step 1 over the parents of `t` on the children
lists: `t` is filtered out of the children of every listed parent. -/
theorem step1_fold_children (t : String) :
    ∀ (l : List String) (s : BState) (q : String),
      (l.foldl (fun acc p => setChildren acc p (removeFrom (acc.children p) t)) s).children q
        = if q ∈ l then removeFrom (s.children q) t else s.children q := by
  intro l
  induction l with
  | nil => intro s q; simp
  | cons p ps ih =>
    intro s q
    rw [List.foldl_cons, ih]
    by_cases hq : q ∈ ps
    · rw [if_pos hq, if_pos (List.mem_cons_of_mem p hq)]
      rw [setChildren_children]
      by_cases hqp : q = p
      · rw [if_pos hqp, hqp, removeFrom_idem]
      · rw [if_neg hqp]
    · rw [if_neg hq, setChildren_children]
      by_cases hqp : q = p
      · rw [if_pos hqp, if_pos (by rw [hqp]; exact List.mem_cons_self p ps), hqp]
      · rw [if_neg hqp, if_neg (by
          intro hmem
          rcases List.mem_cons.1 hmem with h | h
          · exact hqp h
          · exact hq h)]

theorem step1_fold_parents (t : String) :
    ∀ (l : List String) (s : BState),
      (l.foldl (fun acc p => setChildren acc p (removeFrom (acc.children p) t)) s).parents
        = s.parents := by
  intro l
  induction l with
  | nil => intro s; rfl
  | cons p ps ih => intro s; rw [List.foldl_cons, ih, setChildren_parents]

theorem step1_fold_keys (t : String) :
    ∀ (l : List String) (s : BState),
      (l.foldl (fun acc p => setChildren acc p (removeFrom (acc.children p) t)) s).keys
        = s.keys := by
  intro l
  induction l with
  | nil => intro s; rfl
  | cons p ps ih => intro s; rw [List.foldl_cons, ih, setChildren_keys]

theorem step1_children (s : BState) (t q : String) :
    (step1 s t).children q =
      if q ∈ s.parents t then removeFrom (s.children q) t else s.children q := by
  unfold step1
  rw [setParents_children]
  exact step1_fold_children t (s.parents t) s q

theorem step1_parents (s : BState) (t y : String) :
    (step1 s t).parents y = if y = t then [] else s.parents y := by
  unfold step1
  rw [setParents_parents]
  by_cases hy : y = t
  · rw [if_pos hy, if_pos hy]
  · rw [if_neg hy, if_neg hy, step1_fold_parents]

theorem step1_keys (s : BState) (t : String) : (step1 s t).keys = s.keys := by
  unfold step1
  rw [setParents_keys, step1_fold_keys]

/-- During removal every list only shrinks and the key set is
untouched. -/
def ShrinkB (s s' : BState) : Prop :=
  (∀ x, s'.children x ⊆ s.children x) ∧ (∀ x, s'.parents x ⊆ s.parents x) ∧
    s'.keys = s.keys

theorem shrink_refl (s : BState) : ShrinkB s s :=
  ⟨fun _ _ h => h, fun _ _ h => h, rfl⟩

theorem shrink_trans {s1 s2 s3 : BState} (h1 : ShrinkB s1 s2) (h2 : ShrinkB s2 s3) :
    ShrinkB s1 s3 :=
  ⟨fun x _ h => h1.1 x (h2.1 x h), fun x _ h => h1.2.1 x (h2.2.1 x h),
    h2.2.2.trans h1.2.2⟩

theorem step1_shrink (s : BState) (t : String) : ShrinkB s (step1 s t) := by
  refine ⟨?_, ?_, step1_keys s t⟩
  · intro x
    rw [step1_children]
    split
    · exact removeFrom_subset _ t
    · exact fun _ h => h
  · intro x
    rw [step1_parents]
    split
    · exact List.nil_subset _
    · exact fun _ h => h

theorem removeRun_shrink : ∀ (n : Nat) (task : RTask) (s s' : BState),
    removeRun n task s = some s' → ShrinkB s s' := by
  intro n
  induction n with
  | zero =>
    intro task s s' h
    simp [removeRun] at h
  | succ n ih =>
    intro task s s' h
    match task with
    | RTask.rem t =>
      simp only [removeRun] at h
      exact shrink_trans (step1_shrink s t) (ih _ _ _ h)
    | RTask.kids t [] =>
      simp only [removeRun] at h
      obtain rfl : s = s' := by injection h
      exact shrink_refl s
    | RTask.kids t (c :: cs) =>
      simp only [removeRun] at h
      have hsh1 : ShrinkB s (setParents s c (removeFrom (s.parents c) t)) := by
        refine ⟨fun x _ hx => hx, ?_, rfl⟩
        intro x
        rw [setParents_parents]
        split
        · rename_i hx
          rw [hx]
          exact removeFrom_subset _ t
        · exact fun _ hx => hx
      by_cases he : ((setParents s c (removeFrom (s.parents c) t)).parents c).isEmpty = true
      · rw [if_pos he] at h
        rcases hrec : removeRun n (RTask.rem c) (setParents s c (removeFrom (s.parents c) t))
          with _ | s2
        · rw [hrec] at h
          exact absurd h (by simp)
        · rw [hrec] at h
          exact shrink_trans hsh1 (shrink_trans (ih _ _ _ hrec) (ih _ _ _ h))
      · rw [if_neg he] at h
        exact shrink_trans hsh1 (ih _ _ _ h)

/-! ## Structural facts about the removal cascade -/

theorem subset_nil_eq {l : List String} (h : l ⊆ []) : l = [] := by
  rw [List.eq_nil_iff_forall_not_mem]
  intro a ha
  exact absurd (h ha) (List.not_mem_nil a)

/-- After removal the target has no parents left (spec §4.2 step 2). -/
theorem removeRun_rem_parents : ∀ (n : Nat) (t : String) (s s' : BState),
    removeRun n (RTask.rem t) s = some s' → s'.parents t = [] := by
  intro n t s s' h
  cases n with
  | zero => simp [removeRun] at h
  | succ n =>
    simp only [removeRun] at h
    have hsh := removeRun_shrink n _ _ _ h
    have hsub : s'.parents t ⊆ (step1 s t).parents t := hsh.2.1 t
    rw [step1_parents, if_pos rfl] at hsub
    exact subset_nil_eq hsub

/-- After removal the target is no longer among the children of any node. -/
theorem removeRun_rem_not_child : ∀ (n : Nat) (t : String) (s s' : BState),
    SymB s → removeRun n (RTask.rem t) s = some s' → ∀ p, t ∉ s'.children p := by
  intro n t s s' hsym h p
  cases n with
  | zero => simp [removeRun] at h
  | succ n =>
    simp only [removeRun] at h
    have hsh := removeRun_shrink n _ _ _ h
    intro hmem
    have hmem1 : t ∈ (step1 s t).children p := hsh.1 p hmem
    rw [step1_children] at hmem1
    by_cases hp : p ∈ s.parents t
    · rw [if_pos hp] at hmem1
      exact not_mem_removeFrom _ t hmem1
    · rw [if_neg hp] at hmem1
      exact hp ((hsym p t).1 hmem1)

/-- Every child the cascade iterates over loses the target from its
parents (spec §4.2 step 3). -/
theorem removeRun_kids_not_parent : ∀ (n : Nat) (t : String) (cs : List String)
    (s s' : BState), removeRun n (RTask.kids t cs) s = some s' →
      ∀ c ∈ cs, t ∉ s'.parents c := by
  intro n
  induction n with
  | zero =>
    intro t cs s s' h
    simp [removeRun] at h
  | succ n ih =>
    intro t cs s s' h c hc
    cases cs with
    | nil => exact absurd hc (List.not_mem_nil c)
    | cons c0 cs =>
      simp only [removeRun] at h
      have hpar1 : (setParents s c0 (removeFrom (s.parents c0) t)).parents c0
          = removeFrom (s.parents c0) t := by
        rw [setParents_parents, if_pos rfl]
      rcases List.mem_cons.1 hc with rfl | htail
      · -- c is the head: its parents were filtered, later steps only shrink
        by_cases he : ((setParents s c (removeFrom (s.parents c) t)).parents c).isEmpty = true
        · rw [if_pos he] at h
          rcases hrec : removeRun n (RTask.rem c)
              (setParents s c (removeFrom (s.parents c) t)) with _ | s2
          · rw [hrec] at h
            exact absurd h (by simp)
          · rw [hrec] at h
            intro hmem
            have h2 := (removeRun_shrink n _ _ _ h).2.1 c hmem
            have h3 := (removeRun_shrink n _ _ _ hrec).2.1 c h2
            rw [hpar1] at h3
            exact not_mem_removeFrom _ t h3
        · rw [if_neg he] at h
          intro hmem
          have h2 := (removeRun_shrink n _ _ _ h).2.1 c hmem
          rw [hpar1] at h2
          exact not_mem_removeFrom _ t h2
      · -- c is in the tail: apply the induction hypothesis
        by_cases he : ((setParents s c0 (removeFrom (s.parents c0) t)).parents c0).isEmpty = true
        · rw [if_pos he] at h
          rcases hrec : removeRun n (RTask.rem c0)
              (setParents s c0 (removeFrom (s.parents c0) t)) with _ | s2
          · rw [hrec] at h
            exact absurd h (by simp)
          · rw [hrec] at h
            exact ih t cs s2 s' h c htail
        · rw [if_neg he] at h
          exact ih t cs _ s' h c htail

/-! ## Symmetry after removal -/

/-- One direction of bidirectional symmetry: every recorded parent link
is backed by a child link. -/
def Half1 (s : BState) : Prop := ∀ p c, p ∈ s.parents c → c ∈ s.children p

/-- The other direction, weakened at fully detached nodes: a child link
is backed by a parent link unless the would-be parent has itself been
detached (its parents are empty); a removed node keeps stale child
references (spec §4.2 step 2). -/
def Half2 (s : BState) : Prop :=
  ∀ p c, c ∈ s.children p → p ∈ s.parents c ∨ s.parents p = []

theorem step1_half1 {s : BState} (t : String) (h1 : Half1 s) : Half1 (step1 s t) := by
  intro p c hp
  rw [step1_parents] at hp
  by_cases hc : c = t
  · rw [if_pos hc] at hp
    exact absurd hp (List.not_mem_nil p)
  · rw [if_neg hc] at hp
    have hcc : c ∈ s.children p := h1 p c hp
    rw [step1_children]
    by_cases hpt : p ∈ s.parents t
    · rw [if_pos hpt]
      exact mem_removeFrom.2 ⟨hcc, hc⟩
    · rw [if_neg hpt]
      exact hcc

theorem step1_half2 {s : BState} (t : String) (h2 : Half2 s) :
    Half2 (step1 s t) := by
  intro p c hc
  have hcs : c ∈ s.children p := by
    rw [step1_children] at hc
    by_cases hpt : p ∈ s.parents t
    · rw [if_pos hpt] at hc
      exact removeFrom_subset _ _ hc
    · rw [if_neg hpt] at hc
      exact hc
  rcases h2 p c hcs with hps | hpn
  · by_cases hct : c = t
    · -- then p is a parent of t, so the filter removed t from p's children
      exfalso
      rw [step1_children, if_pos (hct ▸ hps)] at hc
      exact not_mem_removeFrom _ t (hct ▸ hc)
    · left
      rw [step1_parents, if_neg hct]
      exact hps
  · right
    rw [step1_parents]
    split
    · rfl
    · exact hpn

/-- One iteration of the cascade loop (removing the freshly detached
`t` from the parents of child `c`) preserves both symmetry halves and
the emptiness of the parents of `t`. -/
theorem cascadeStep_half {s : BState} (t c : String) (h1 : Half1 s) (h2 : Half2 s)
    (hpt : s.parents t = []) :
    Half1 (setParents s c (removeFrom (s.parents c) t)) ∧
      Half2 (setParents s c (removeFrom (s.parents c) t)) ∧
      (setParents s c (removeFrom (s.parents c) t)).parents t = [] := by
  have hsp : ∀ y, (setParents s c (removeFrom (s.parents c) t)).parents y
      = if y = c then removeFrom (s.parents c) t else s.parents y :=
    setParents_parents s c (removeFrom (s.parents c) t)
  refine ⟨?_, ?_, ?_⟩
  · intro p y hp
    rw [hsp] at hp
    rw [setParents_children]
    by_cases hyc : y = c
    · rw [if_pos hyc] at hp
      exact hyc ▸ h1 p c (removeFrom_subset _ _ hp)
    · rw [if_neg hyc] at hp
      exact h1 p y hp
  · intro p y hy
    rw [setParents_children] at hy
    rcases h2 p y hy with hps | hpn
    · by_cases hyc : y = c
      · by_cases hptp : p = t
        · right
          rw [hsp]
          by_cases htc : t = c
          · rw [hptp, if_pos htc, ← htc, hpt]
            rfl
          · rw [hptp, if_neg htc]
            exact hpt
        · left
          rw [hsp, if_pos hyc]
          exact mem_removeFrom.2 ⟨hyc ▸ hps, hptp⟩
      · left
        rw [hsp, if_neg hyc]
        exact hps
    · right
      rw [hsp]
      by_cases hpc : p = c
      · rw [if_pos hpc, ← hpc, hpn]
        rfl
      · rw [if_neg hpc]
        exact hpn
  · rw [hsp]
    by_cases htc : t = c
    · rw [if_pos htc, ← htc, hpt]
      rfl
    · rw [if_neg htc]
      exact hpt

/-- Both symmetry halves survive the whole cascade: full symmetry can
only break at detached nodes, which keep stale child references. -/
theorem removeRun_halfSym : ∀ (n : Nat) (task : RTask) (s s' : BState),
    removeRun n task s = some s' → Half1 s → Half2 s →
    (∀ t cs, task = RTask.kids t cs → s.parents t = []) →
    Half1 s' ∧ Half2 s' := by
  intro n
  induction n with
  | zero =>
    intro task s s' h
    simp [removeRun] at h
  | succ n ih =>
    intro task s s' h h1 h2 hpre
    match task with
    | RTask.rem t =>
      simp only [removeRun] at h
      refine ih _ _ _ h (step1_half1 t h1) (step1_half2 t h2) ?_
      intro t' cs heq
      obtain ⟨rfl, -⟩ : t = t' ∧ (step1 s t).children t = cs := by
        injection heq with e1 e2
        exact ⟨e1, e2⟩
      rw [step1_parents, if_pos rfl]
    | RTask.kids t [] =>
      simp only [removeRun] at h
      obtain rfl : s = s' := by injection h
      exact ⟨h1, h2⟩
    | RTask.kids t (c :: cs) =>
      have hpt : s.parents t = [] := hpre t (c :: cs) rfl
      simp only [removeRun] at h
      obtain ⟨h1₁, h2₁, hs1t⟩ := cascadeStep_half t c h1 h2 hpt
      by_cases he : ((setParents s c (removeFrom (s.parents c) t)).parents c).isEmpty = true
      · rw [if_pos he] at h
        rcases hrec : removeRun n (RTask.rem c)
            (setParents s c (removeFrom (s.parents c) t)) with _ | s2
        · rw [hrec] at h
          exact absurd h (by simp)
        · rw [hrec] at h
          obtain ⟨h1₂, h2₂⟩ := ih _ _ _ hrec h1₁ h2₁ (fun t' cs' heq => by simp at heq)
          refine ih _ _ _ h h1₂ h2₂ ?_
          intro t' cs' heq
          obtain ⟨rfl, -⟩ : t = t' ∧ cs = cs' := by
            injection heq with e1 e2
            exact ⟨e1, e2⟩
          exact subset_nil_eq (hs1t ▸ (removeRun_shrink n _ _ _ hrec).2.1 t)
      · rw [if_neg he] at h
        refine ih _ _ _ h h1₁ h2₁ ?_
        intro t' cs' heq
        obtain ⟨rfl, -⟩ : t = t' ∧ cs = cs' := by
          injection heq with e1 e2
          exact ⟨e1, e2⟩
        exact hs1t

/-! ## Fuel monotonicity and further shrink facts of the removal -/

theorem removeFrom_mono {l l' : List String} (h : l ⊆ l') (x : String) :
    removeFrom l x ⊆ removeFrom l' x := by
  intro y hy
  obtain ⟨h1, h2⟩ := mem_removeFrom.1 hy
  exact mem_removeFrom.2 ⟨h h1, h2⟩

theorem eq_nil_of_isEmpty {l : List String} (h : l.isEmpty = true) : l = [] := by
  cases l with
  | nil => rfl
  | cons a t => simp [List.isEmpty] at h

/-- Single unfolding steps of `removeRun`, stated as equations so that
exactly one recursion level is exposed at a time. -/
theorem removeRun_rem_eq (n : Nat) (t : String) (s : BState) :
    removeRun (n + 1) (RTask.rem t) s
      = removeRun n (RTask.kids t ((step1 s t).children t)) (step1 s t) := rfl

theorem removeRun_kids_nil_eq (n : Nat) (t : String) (s : BState) :
    removeRun (n + 1) (RTask.kids t []) s = some s := rfl

theorem removeRun_kids_cons_eq (n : Nat) (t c : String) (cs : List String) (s : BState) :
    removeRun (n + 1) (RTask.kids t (c :: cs)) s =
      (if ((setParents s c (removeFrom (s.parents c) t)).parents c).isEmpty = true then
        match removeRun n (RTask.rem c) (setParents s c (removeFrom (s.parents c) t)) with
        | none => none
        | some s2 => removeRun n (RTask.kids t cs) s2
      else removeRun n (RTask.kids t cs)
        (setParents s c (removeFrom (s.parents c) t))) := rfl

/-- More fuel never changes a finished removal. -/
theorem removeRun_mono : ∀ (n : Nat) (task : RTask) (s s' : BState),
    removeRun n task s = some s' → removeRun (n + 1) task s = some s' := by
  intro n
  induction n with
  | zero =>
    intro task s s' h
    simp [removeRun] at h
  | succ n ih =>
    intro task s s' h
    match task with
    | RTask.rem t =>
      rw [removeRun_rem_eq] at h
      rw [removeRun_rem_eq]
      exact ih _ _ _ h
    | RTask.kids t [] =>
      rw [removeRun_kids_nil_eq] at h
      rw [removeRun_kids_nil_eq]
      exact h
    | RTask.kids t (c :: cs) =>
      rw [removeRun_kids_cons_eq] at h
      rw [removeRun_kids_cons_eq]
      by_cases he : ((setParents s c (removeFrom (s.parents c) t)).parents c).isEmpty = true
      · rw [if_pos he] at h ⊢
        rcases hrec : removeRun n (RTask.rem c)
            (setParents s c (removeFrom (s.parents c) t)) with _ | s2
        · rw [hrec] at h
          exact absurd h (by simp)
        · rw [hrec] at h
          rw [ih _ _ _ hrec]
          exact ih _ _ _ h
      · rw [if_neg he] at h ⊢
        exact ih _ _ _ h

theorem removeRun_mono_le {n m : Nat} (hnm : n ≤ m) :
    ∀ (task : RTask) (s s' : BState),
      removeRun n task s = some s' → removeRun m task s = some s' := by
  induction m with
  | zero =>
    intro task s s' h
    obtain rfl : n = 0 := by omega
    exact h
  | succ m ih =>
    intro task s s' h
    by_cases hne : n = m + 1
    · exact hne ▸ h
    · exact removeRun_mono m task s s' (ih (by omega) task s s' h)

/-! ## Children lists below the top level, survivors, and full cascades -/

/-- Below a top-level detach, no children list ever changes: every
cascaded node enters the procedure with empty parents, so its step 1
iterates over nothing.  (Stale children references are therefore kept,
spec §4.2 step 2.) -/
theorem removeRun_children_const : ∀ (n : Nat) (task : RTask) (s s' : BState),
    removeRun n task s = some s' → (∀ u, task = RTask.rem u → s.parents u = []) →
    ∀ y, s'.children y = s.children y := by
  intro n
  induction n with
  | zero =>
    intro task s s' h
    simp [removeRun] at h
  | succ n ih =>
    intro task s s' h hpre y
    match task with
    | RTask.rem u =>
      have hpu : s.parents u = [] := hpre u rfl
      rw [removeRun_rem_eq] at h
      have hstep : step1 s u = s := by
        unfold step1
        rw [hpu]
        exact setParents_eq_self hpu
      rw [hstep] at h
      exact ih _ _ _ h (fun u' heq => by simp at heq) y
    | RTask.kids t [] =>
      rw [removeRun_kids_nil_eq] at h
      obtain rfl : s = s' := by injection h
      rfl
    | RTask.kids t (c :: cs) =>
      rw [removeRun_kids_cons_eq] at h
      by_cases he : ((setParents s c (removeFrom (s.parents c) t)).parents c).isEmpty = true
      · rw [if_pos he] at h
        rcases hrec : removeRun n (RTask.rem c)
            (setParents s c (removeFrom (s.parents c) t)) with _ | s2
        · rw [hrec] at h
          exact absurd h (by simp)
        · rw [hrec] at h
          have hc1 := ih _ _ _ hrec (fun u' heq => by
            obtain rfl : c = u' := by injection heq
            exact eq_nil_of_isEmpty he) y
          have hc2 := ih _ _ _ h (fun u' heq => by simp at heq) y
          rw [hc2, hc1, setParents_children]
      · rw [if_neg he] at h
        have hc2 := ih _ _ _ h (fun u' heq => by simp at heq) y
        rw [hc2, setParents_children]

/-- A node removed with already-empty parents ends up absent from the
`Parents` collection of every node: the cascade removes it from each of
its children, and symmetry guarantees it was nowhere else. -/
theorem removeRun_full_detach : ∀ (n : Nat),
    (∀ t s s', removeRun n (RTask.rem t) s = some s' → Half1 s → Half2 s →
      s.parents t = [] → ∀ d, t ∉ s'.parents d) ∧
    (∀ t cs s s', removeRun n (RTask.kids t cs) s = some s' → Half1 s → Half2 s →
      s.parents t = [] → (∀ d, t ∈ s.parents d → d ∈ cs) → ∀ d, t ∉ s'.parents d) := by
  intro n
  induction n with
  | zero =>
    constructor
    · intro t s s' h
      simp [removeRun] at h
    · intro t cs s s' h
      simp [removeRun] at h
  | succ n ih =>
    constructor
    · intro t s s' h h1 h2 hpt d
      rw [removeRun_rem_eq] at h
      have hstep : step1 s t = s := by
        unfold step1
        rw [hpt]
        exact setParents_eq_self hpt
      rw [hstep] at h
      exact ih.2 t (s.children t) s s' h h1 h2 hpt (fun d' hd' => h1 t d' hd') d
    · intro t cs s s' h h1 h2 hpt hcov d
      cases cs with
      | nil =>
        rw [removeRun_kids_nil_eq] at h
        obtain rfl : s = s' := by injection h
        exact fun hmem => absurd (hcov d hmem) (List.not_mem_nil d)
      | cons c cs =>
        rw [removeRun_kids_cons_eq] at h
        obtain ⟨h1₁, h2₁, hpt₁⟩ := cascadeStep_half t c h1 h2 hpt
        have hcov₁ : ∀ d', t ∈ (setParents s c (removeFrom (s.parents c) t)).parents d' →
            d' ∈ cs := by
          intro d' hd'
          rw [setParents_parents] at hd'
          by_cases hdc : d' = c
          · rw [if_pos hdc] at hd'
            exact absurd hd' (not_mem_removeFrom _ t)
          · rw [if_neg hdc] at hd'
            rcases List.mem_cons.1 (hcov d' hd') with h' | h'
            · exact absurd h' hdc
            · exact h'
        by_cases he : ((setParents s c (removeFrom (s.parents c) t)).parents c).isEmpty = true
        · rw [if_pos he] at h
          rcases hrec : removeRun n (RTask.rem c)
              (setParents s c (removeFrom (s.parents c) t)) with _ | s2
          · rw [hrec] at h
            exact absurd h (by simp)
          · rw [hrec] at h
            obtain ⟨h1₂, h2₂⟩ := removeRun_halfSym n _ _ _ hrec h1₁ h2₁
              (fun t' cs' heq => by simp at heq)
            have hsh2 := removeRun_shrink n _ _ _ hrec
            have hpt₂ : s2.parents t = [] := subset_nil_eq (hpt₁ ▸ hsh2.2.1 t)
            have hcov₂ : ∀ d', t ∈ s2.parents d' → d' ∈ cs :=
              fun d' hd' => hcov₁ d' (hsh2.2.1 d' hd')
            exact ih.2 t cs s2 s' h h1₂ h2₂ hpt₂ hcov₂ d
        · rw [if_neg he] at h
          exact ih.2 t cs _ s' h h1₁ h2₁ hpt₁ hcov₁ d

/-- A parent entry survives removal as long as the parent itself
survives: `p` disappears from `x.Parents` only when `p` is removed (or
`x` is the removed target itself). -/
theorem removeRun_surv_parent : ∀ (n : Nat),
    (∀ t s s', removeRun n (RTask.rem t) s = some s' →
      ∀ p x, x ≠ t → p ∈ s.parents x → s'.parents p ≠ [] → p ∈ s'.parents x) ∧
    (∀ t cs s s', removeRun n (RTask.kids t cs) s = some s' → s.parents t = [] →
      ∀ p x, p ∈ s.parents x → s'.parents p ≠ [] → p ∈ s'.parents x) := by
  intro n
  induction n with
  | zero =>
    constructor
    · intro t s s' h
      simp [removeRun] at h
    · intro t cs s s' h
      simp [removeRun] at h
  | succ n ih =>
    constructor
    · intro t s s' h p x hxt hp hne
      rw [removeRun_rem_eq] at h
      have hpx1 : p ∈ (step1 s t).parents x := by
        rw [step1_parents, if_neg hxt]
        exact hp
      have hpt1 : (step1 s t).parents t = [] := by
        rw [step1_parents, if_pos rfl]
      exact ih.2 t _ _ s' h hpt1 p x hpx1 hne
    · intro t cs s s' h hpt p x hp hne
      cases cs with
      | nil =>
        rw [removeRun_kids_nil_eq] at h
        obtain rfl : s = s' := by injection h
        exact hp
      | cons c cs =>
        rw [removeRun_kids_cons_eq] at h
        have hs1t : (setParents s c (removeFrom (s.parents c) t)).parents t = [] := by
          rw [setParents_parents]
          by_cases htc : t = c
          · rw [if_pos htc, ← htc, hpt]
            rfl
          · rw [if_neg htc]
            exact hpt
        by_cases he : ((setParents s c (removeFrom (s.parents c) t)).parents c).isEmpty = true
        · rw [if_pos he] at h
          rcases hrec : removeRun n (RTask.rem c)
              (setParents s c (removeFrom (s.parents c) t)) with _ | s2
          · rw [hrec] at h
            exact absurd h (by simp)
          · rw [hrec] at h
            have hsh2 := removeRun_shrink n _ _ _ hrec
            have hsh3 := removeRun_shrink n _ _ _ h
            have hptfin : s'.parents t = [] := by
              refine subset_nil_eq ?_
              have h2' : s2.parents t = [] := subset_nil_eq (hs1t ▸ hsh2.2.1 t)
              exact h2' ▸ hsh3.2.1 t
            have hpnt : p ≠ t := fun he' => hne (he' ▸ hptfin)
            have hpx1 : p ∈ (setParents s c (removeFrom (s.parents c) t)).parents x := by
              rw [setParents_parents]
              by_cases hxc : x = c
              · rw [if_pos hxc]
                exact mem_removeFrom.2 ⟨hxc ▸ hp, hpnt⟩
              · rw [if_neg hxc]
                exact hp
            have hxc : x ≠ c := by
              intro hx
              rw [setParents_parents, if_pos hx, ← hx] at hpx1
              have : (setParents s c (removeFrom (s.parents c) t)).parents c = [] :=
                eq_nil_of_isEmpty he
              rw [setParents_parents, if_pos rfl] at this
              rw [hx, this] at hpx1
              exact absurd hpx1 (List.not_mem_nil p)
            have hne2 : s2.parents p ≠ [] := ne_nil_of_subset (hsh3.2.1 p) hne
            have hpx2 : p ∈ s2.parents x := ih.1 c _ s2 hrec p x hxc hpx1 hne2
            have hpt2 : s2.parents t = [] := subset_nil_eq (hs1t ▸ hsh2.2.1 t)
            exact ih.2 t cs s2 s' h hpt2 p x hpx2 hne
        · rw [if_neg he] at h
          have hsh := removeRun_shrink n _ _ _ h
          have hptfin : s'.parents t = [] := subset_nil_eq (hs1t ▸ hsh.2.1 t)
          have hpnt : p ≠ t := fun he' => hne (he' ▸ hptfin)
          have hpx1 : p ∈ (setParents s c (removeFrom (s.parents c) t)).parents x := by
            rw [setParents_parents]
            by_cases hxc : x = c
            · rw [if_pos hxc]
              exact mem_removeFrom.2 ⟨hxc ▸ hp, hpnt⟩
            · rw [if_neg hxc]
              exact hp
          exact ih.2 t cs _ s' h hs1t p x hpx1 hne

/-- A child of the cascade whose parents become empty is itself fully
removed: its parents end empty and it ends absent from every node's
`Parents` collection. -/
theorem removeRun_kids_cascade : ∀ (n : Nat) (t : String) (cs : List String)
    (s s' : BState), removeRun n (RTask.kids t cs) s = some s' →
    Half1 s → Half2 s → s.parents t = [] →
    ∀ c ∈ cs, removeFrom (s.parents c) t = [] →
      s'.parents c = [] ∧ ∀ d, c ∉ s'.parents d := by
  intro n
  induction n with
  | zero =>
    intro t cs s s' h
    simp [removeRun] at h
  | succ n ih =>
    intro t cs s s' h h1 h2 hpt c hc hcemp
    cases cs with
    | nil => exact absurd hc (List.not_mem_nil c)
    | cons c0 cs =>
      rw [removeRun_kids_cons_eq] at h
      obtain ⟨h1₁, h2₁, hpt₁⟩ := cascadeStep_half t c0 h1 h2 hpt
      have hpar1 : (setParents s c0 (removeFrom (s.parents c0) t)).parents c0
          = removeFrom (s.parents c0) t := by
        rw [setParents_parents, if_pos rfl]
      have hsub1 : ∀ x, (setParents s c0 (removeFrom (s.parents c0) t)).parents x
          ⊆ s.parents x := by
        intro x y hy
        rw [setParents_parents] at hy
        by_cases hxc : x = c0
        · rw [if_pos hxc] at hy
          exact hxc ▸ removeFrom_subset _ t hy
        · rw [if_neg hxc] at hy
          exact hy
      rcases List.mem_cons.1 hc with rfl | htail
      · have he : ((setParents s c (removeFrom (s.parents c) t)).parents c).isEmpty
            = true := by
          rw [hpar1, hcemp]
          rfl
        rw [if_pos he] at h
        rcases hrec : removeRun n (RTask.rem c)
            (setParents s c (removeFrom (s.parents c) t)) with _ | s2
        · rw [hrec] at h
          exact absurd h (by simp)
        · rw [hrec] at h
          have hp2 : s2.parents c = [] := removeRun_rem_parents n c _ s2 hrec
          have hsh3 := removeRun_shrink n _ _ _ h
          have hfin : s'.parents c = [] := subset_nil_eq (hp2 ▸ hsh3.2.1 c)
          have hfd : ∀ d, c ∉ s2.parents d :=
            (removeRun_full_detach n).1 c _ s2 hrec h1₁ h2₁ (by rw [hpar1, hcemp])
          exact ⟨hfin, fun d hmem => hfd d (hsh3.2.1 d hmem)⟩
      · by_cases he : ((setParents s c0 (removeFrom (s.parents c0) t)).parents c0).isEmpty
            = true
        · rw [if_pos he] at h
          rcases hrec : removeRun n (RTask.rem c0)
              (setParents s c0 (removeFrom (s.parents c0) t)) with _ | s2
          · rw [hrec] at h
            exact absurd h (by simp)
          · rw [hrec] at h
            obtain ⟨h1₂, h2₂⟩ := removeRun_halfSym n _ _ _ hrec h1₁ h2₁
              (fun t' cs' heq => by simp at heq)
            have hsh2 := removeRun_shrink n _ _ _ hrec
            have hpt₂ : s2.parents t = [] := subset_nil_eq (hpt₁ ▸ hsh2.2.1 t)
            have hcemp₂ : removeFrom (s2.parents c) t = [] := by
              refine subset_nil_eq ?_
              refine hcemp ▸ removeFrom_mono ?_ t
              exact fun y hy => hsub1 c (hsh2.2.1 c hy)
            exact ih t cs s2 s' h h1₂ h2₂ hpt₂ c htail hcemp₂
        · rw [if_neg he] at h
          have hcemp₁ : removeFrom
              ((setParents s c0 (removeFrom (s.parents c0) t)).parents c) t = [] := by
            refine subset_nil_eq ?_
            exact hcemp ▸ removeFrom_mono (hsub1 c) t
          exact ih t cs _ s' h h1₁ h2₁ hpt₁ c htail hcemp₁

/-! ## The cascade when every child keeps another parent -/

/-- When every iterated child keeps at least one parent other than the
target, no recursion is triggered: children lists are untouched and the
iterated children lose exactly the target from their parents. -/
theorem removeRun_kids_no_cascade : ∀ (n : Nat) (t : String) (cs : List String)
    (s s' : BState), removeRun n (RTask.kids t cs) s = some s' → cs.Nodup →
      (∀ c ∈ cs, removeFrom (s.parents c) t ≠ []) →
      (∀ x, s'.children x = s.children x) ∧
      (∀ c ∈ cs, s'.parents c = removeFrom (s.parents c) t) ∧
      (∀ x, x ∉ cs → s'.parents x = s.parents x) := by
  intro n
  induction n with
  | zero =>
    intro t cs s s' h
    simp [removeRun] at h
  | succ n ih =>
    intro t cs s s' h hnd hall
    cases cs with
    | nil =>
      simp only [removeRun] at h
      obtain rfl : s = s' := by injection h
      exact ⟨fun _ => rfl, fun c hc => absurd hc (List.not_mem_nil c), fun _ _ => rfl⟩
    | cons c cs =>
      simp only [removeRun] at h
      have hpar1 : (setParents s c (removeFrom (s.parents c) t)).parents c
          = removeFrom (s.parents c) t := by
        rw [setParents_parents, if_pos rfl]
      have hje : ((setParents s c (removeFrom (s.parents c) t)).parents c).isEmpty = false := by
        rw [hpar1]
        exact isEmpty_eq_false_of_ne_nil (hall c (List.mem_cons_self c cs))
      rw [if_neg (by rw [hje]; simp)] at h
      have hcnotin : c ∉ cs := (List.nodup_cons.1 hnd).1
      obtain ⟨hch, hpin, hpout⟩ := ih t cs _ s' h (List.nodup_cons.1 hnd).2
        (fun c' hc' => by
          rw [setParents_parents, if_neg (fun he : c' = c => hcnotin (he ▸ hc'))]
          exact hall c' (List.mem_cons_of_mem c hc'))
      refine ⟨?_, ?_, ?_⟩
      · intro x
        rw [hch x, setParents_children]
      · intro c' hc'
        rcases List.mem_cons.1 hc' with rfl | htail
        · rw [hpout c' hcnotin, hpar1]
        · rw [hpin c' htail, setParents_parents,
            if_neg (fun he : c' = c => hcnotin (he ▸ htail))]
      · intro x hx
        rw [hpout x (fun hmem => hx (List.mem_cons_of_mem c hmem)),
          setParents_parents,
          if_neg (fun he : x = c => hx (by rw [he]; exact List.mem_cons_self c cs))]

/-! ## Idempotence on detached nodes -/

theorem removeRun_kids_noop : ∀ (cs : List String) (n : Nat) (s : BState) (t : String),
    (∀ c ∈ cs, t ∉ s.parents c ∧ s.parents c ≠ []) → cs.length + 1 ≤ n →
    removeRun n (RTask.kids t cs) s = some s := by
  intro cs
  induction cs with
  | nil =>
    intro n s t _ hn
    obtain ⟨n', rfl⟩ : ∃ n', n = n' + 1 := ⟨n - 1, by omega⟩
    rfl
  | cons c cs ih =>
    intro n s t hdet hn
    obtain ⟨n', rfl⟩ : ∃ n', n = n' + 1 := ⟨n - 1, by omega⟩
    simp only [removeRun]
    have hs1 : setParents s c (removeFrom (s.parents c) t) = s := by
      rw [removeFrom_eq_self (hdet c (List.mem_cons_self c cs)).1]
      exact setParents_eq_self rfl
    rw [hs1]
    rw [if_neg (by
      rw [isEmpty_eq_false_of_ne_nil (hdet c (List.mem_cons_self c cs)).2]
      simp)]
    exact ih n' s t (fun c' hc' => hdet c' (List.mem_cons_of_mem c hc'))
      (by simp at hn ⊢; omega)

/-- Removing an already fully detached node (no parents, and no child
still linking back to it while every child keeps some parent) changes
nothing at all. -/
theorem removeRun_rem_noop {s : BState} {t : String} (hpt : s.parents t = [])
    (hdet : ∀ c ∈ s.children t, t ∉ s.parents c ∧ s.parents c ≠ []) :
    ∀ n, (s.children t).length + 2 ≤ n → removeRun n (RTask.rem t) s = some s := by
  intro n hn
  obtain ⟨n', rfl⟩ : ∃ n', n = n' + 1 := ⟨n - 1, by omega⟩
  simp only [removeRun]
  have hstep : step1 s t = s := by
    unfold step1
    rw [hpt]
    exact setParents_eq_self hpt
  rw [hstep]
  exact removeRun_kids_noop (s.children t) n' s t hdet (by omega)

/-! ## Fully detached regions -/

/-- `t` is fully detached in `s`: it has no parents, no child still
links back to it, and every child that is itself orphaned (empty
parents — i.e. it was removed by the same earlier cascade) is
recursively detached as well.  This is exactly the state in which a
prior `removeNodeRecursively` leaves the removed node and its stale
children (spec §4.2 steps 2-3). -/
inductive DetachedAt (s : BState) : String → Prop where
  | mk (t : String) (hpt : s.parents t = [])
      (hnl : ∀ c ∈ s.children t, t ∉ s.parents c)
      (hrec : ∀ c ∈ s.children t, s.parents c = [] → DetachedAt s c) :
      DetachedAt s t

theorem detached_parents {s : BState} {t : String} (h : DetachedAt s t) :
    s.parents t = [] := by
  cases h with
  | mk _ hpt _ _ => exact hpt

theorem detached_nolink {s : BState} {t : String} (h : DetachedAt s t) :
    ∀ c ∈ s.children t, t ∉ s.parents c := by
  cases h with
  | mk _ _ hnl _ => exact hnl

theorem detached_rec {s : BState} {t : String} (h : DetachedAt s t) :
    ∀ c ∈ s.children t, s.parents c = [] → DetachedAt s c := by
  cases h with
  | mk _ _ _ hrec => exact hrec

/-- Whenever removal of a detached node finishes, it returns the state
unchanged. -/
theorem removeRun_detached_eq : ∀ (n : Nat),
    (∀ t s s', DetachedAt s t → removeRun n (RTask.rem t) s = some s' → s' = s) ∧
    (∀ t cs s s', (∀ c ∈ cs, t ∉ s.parents c ∧ (s.parents c = [] → DetachedAt s c)) →
      removeRun n (RTask.kids t cs) s = some s' → s' = s) := by
  intro n
  induction n with
  | zero =>
    constructor
    · intro t s s' _ h
      simp [removeRun] at h
    · intro t cs s s' _ h
      simp [removeRun] at h
  | succ n ih =>
    constructor
    · intro t s s' hdet h
      rw [removeRun_rem_eq] at h
      have hstep : step1 s t = s := by
        unfold step1
        rw [detached_parents hdet]
        exact setParents_eq_self (detached_parents hdet)
      rw [hstep] at h
      exact ih.2 t (s.children t) s s'
        (fun c hc => ⟨detached_nolink hdet c hc, detached_rec hdet c hc⟩) h
    · intro t cs s s' hdet h
      cases cs with
      | nil =>
        rw [removeRun_kids_nil_eq] at h
        obtain rfl : s = s' := by injection h
        rfl
      | cons c cs =>
        rw [removeRun_kids_cons_eq] at h
        have hs1 : setParents s c (removeFrom (s.parents c) t) = s := by
          rw [removeFrom_eq_self (hdet c (List.mem_cons_self c cs)).1]
          exact setParents_eq_self rfl
        rw [hs1] at h
        by_cases he : (s.parents c).isEmpty = true
        · rw [if_pos he] at h
          rcases hrec : removeRun n (RTask.rem c) s with _ | s2
          · rw [hrec] at h
            exact absurd h (by simp)
          · rw [hrec] at h
            have hdc : DetachedAt s c :=
              (hdet c (List.mem_cons_self c cs)).2 (eq_nil_of_isEmpty he)
            obtain rfl : s = s2 := (ih.1 c s s2 hdc hrec).symm
            exact ih.2 t cs s s' (fun c' hc' => hdet c' (List.mem_cons_of_mem c hc')) h
        · rw [if_neg he] at h
          exact ih.2 t cs s s' (fun c' hc' => hdet c' (List.mem_cons_of_mem c hc')) h

/-- Enough fuel exists for the removal of a detached node to finish. -/
theorem detached_kids_exists : ∀ (cs : List String) (t : String) (s : BState),
    (∀ c ∈ cs, t ∉ s.parents c ∧ (s.parents c = [] →
      ∃ n, removeRun n (RTask.rem c) s = some s)) →
    ∃ n, removeRun n (RTask.kids t cs) s = some s := by
  intro cs
  induction cs with
  | nil =>
    intro t s _
    exact ⟨1, rfl⟩
  | cons c cs ih =>
    intro t s hdet
    have hs1 : setParents s c (removeFrom (s.parents c) t) = s := by
      rw [removeFrom_eq_self (hdet c (List.mem_cons_self c cs)).1]
      exact setParents_eq_self rfl
    obtain ⟨nt, ht⟩ := ih t s (fun c' hc' => hdet c' (List.mem_cons_of_mem c hc'))
    by_cases hpc : s.parents c = []
    · obtain ⟨nc, hc⟩ := (hdet c (List.mem_cons_self c cs)).2 hpc
      refine ⟨max nc nt + 1, ?_⟩
      rw [removeRun_kids_cons_eq, hs1, if_pos (by rw [hpc]; rfl)]
      rw [removeRun_mono_le (Nat.le_max_left nc nt) _ _ _ hc]
      exact removeRun_mono_le (Nat.le_max_right nc nt) _ _ _ ht
    · refine ⟨nt + 1, ?_⟩
      rw [removeRun_kids_cons_eq, hs1,
        if_neg (by rw [isEmpty_eq_false_of_ne_nil hpc]; simp)]
      exact ht

theorem detached_rem_exists {s : BState} {t : String} (hdet : DetachedAt s t) :
    ∃ n, removeRun n (RTask.rem t) s = some s := by
  induction hdet with
  | mk t hpt hnl hrec ih =>
    have hstep : step1 s t = s := by
      unfold step1
      rw [hpt]
      exact setParents_eq_self hpt
    obtain ⟨nk, hk⟩ := detached_kids_exists (s.children t) t s
      (fun c hc => ⟨hnl c hc, fun hpc => ih c hc hpc⟩)
    refine ⟨nk + 1, ?_⟩
    rw [removeRun_rem_eq, hstep]
    exact hk

/-! ## Concrete instances -/

/-- The import graph of the happy-path test (imptree_test.go:112-137):
`a` imports `a/a` and `c`; `c` imports `d`, `a/a` and `e`. -/
def gHappy : Graph :=
  ⟨fun p => if p = "a" then ["a/a", "c"] else if p = "c" then ["d", "a/a", "e"] else []⟩

/-- The predicate of the happy-path test (imptree_test.go:143-149):
include `a`, `a/a`, `c`, `d`; exclude `e`. -/
def mHappy : MatchPkg :=
  fun p => (p == "a") || (p == "a/a") || (p == "c") || (p == "d")

/-- The state built by the walk on the happy-path test graph. -/
def sHappy : BState :=
  (buildTree gHappy mHappy 16 (WTask.visit "a") emptyState).getD emptyState

def cInit : CState := ⟨emptyState, fun _ => 0⟩

/-- A two-cycle: `a` imports `b` and `b` imports `a`. -/
def gCyc : Graph :=
  ⟨fun p => if p = "a" then ["b"] else if p = "b" then ["a"] else []⟩

def mAll : MatchPkg := fun _ => true

/-- The shared-child graph of the removal test (imptree_test.go:198-207,
completed to a bidirectionally consistent build): `root` imports `b1`
and `b2`, each of which imports `c`. -/
def gShared : Graph :=
  ⟨fun p => if p = "root" then ["b1", "b2"]
   else if p = "b1" then ["c"] else if p = "b2" then ["c"] else []⟩

def sShared : BState :=
  (buildTree gShared mAll 16 (WTask.visit "root") emptyState).getD emptyState

def sSharedRemoved : BState :=
  (removeRun 16 (RTask.rem "c") sShared).getD emptyState

/-- A chain: `root` imports `b`, `b` imports `c`. -/
def gChain : Graph :=
  ⟨fun p => if p = "root" then ["b"] else if p = "b" then ["c"] else []⟩

def sChain : BState :=
  (buildTree gChain mAll 16 (WTask.visit "root") emptyState).getD emptyState

def sChainRemoved : BState :=
  (removeRun 16 (RTask.rem "b") sChain).getD emptyState

/-! ## Claim C1 -/

/-- C1: the claim states that the recursive walk of `Build` terminates
on every input, including inputs with import cycles, because
re-visiting a materialized unit does not re-traverse its subtree.  The
code has no such guard: `buildTree` recurses into every matched import
unconditionally (imptree.go:129), so on the two-cycle `a ↔ b` with an
all-accepting predicate the recursion never finishes — the walk runs
out of every amount of fuel.  This contradicts the claim (and the
design note of the spec prescribing a visited-set check), exhibiting the
missing guard as a code bug. -/
theorem C1_buildTree_diverges_on_cycle :
    ∀ n : Nat, buildTree gCyc mAll n (WTask.visit "a") emptyState = none := by
  have hab : MStep gCyc mAll "a" "b" := ⟨rfl, rfl, by decide⟩
  have hba : MStep gCyc mAll "b" "a" := ⟨rfl, rfl, by decide⟩
  have hdiv : Diverges gCyc mAll "a" :=
    ⟨rfl, "a", Relation.ReflTransGen.refl,
      Relation.TransGen.head hab (Relation.TransGen.single hba)⟩
  exact fun n => (buildTree_div gCyc mAll n).1 "a" emptyState hdiv

/-! ## Claim C10 -/

/-- C10: `ImportPathFrom(path, moduleName, root)` returns `moduleName`
concatenated with the byte suffix of `path` starting at index
`len(root)` whenever `len(root) ≤ len(path)` — in particular, when
`root` is a prefix of `path`, it returns `moduleName` followed by the
remainder of `path` — and the slice expression panics when
`len(root) > len(path)`. -/
theorem C10_importPathFrom :
    (∀ path moduleName root : List Char, root.length ≤ path.length →
      ImportPathFrom path moduleName root = some (moduleName ++ path.drop root.length)) ∧
    (∀ moduleName root suffix : List Char,
      ImportPathFrom (root ++ suffix) moduleName root = some (moduleName ++ suffix)) ∧
    (∀ path moduleName root : List Char, path.length < root.length →
      ImportPathFrom path moduleName root = none) := by
  refine ⟨?_, ?_, ?_⟩
  · intro path moduleName root h
    unfold ImportPathFrom
    rw [if_pos h]
  · intro moduleName root suffix
    unfold ImportPathFrom
    rw [if_pos (by rw [List.length_append]; omega)]
    rw [List.drop_left]
  · intro path moduleName root h
    unfold ImportPathFrom
    rw [if_neg (by omega)]

/-- Witness for C10 at a concrete path, module name and root. -/
theorem C10_importPathFrom_witness :
    ImportPathFrom ("/home/u/repo/a/b".toList) ("example.com/mod".toList)
      ("/home/u/repo".toList) = some ("example.com/mod/a/b".toList) := by
  have h := C10_importPathFrom.1 ("/home/u/repo/a/b".toList) ("example.com/mod".toList)
    ("/home/u/repo".toList) (by decide)
  rw [h]
  decide

/-! ## Claim C2 -/

/-- C2: after a successful `Build` from a single root identifier,
exactly one materialized node has an empty `Parents` collection (the
root identifier itself), walking `Parents[0]` upward from any
materialized node reaches it in finitely many steps, and `Build`
returns exactly that node. -/
theorem C2_build_root_unique (g : Graph) (m : MatchPkg) (fuel : Nat) (r : String)
    (ec : Nat) (rt : String) (s' : BState)
    (hb : Build g m fuel (Except.ok [r]) ec = some (Except.ok (rt, s'))) :
    rt = r ∧ r ∈ s'.keys ∧ s'.parents r = [] ∧
      (∀ x ∈ s'.keys, s'.parents x = [] → x = r) ∧
      (∀ x ∈ s'.keys, ∃ n, findRoot s' n x = some r) := by
  simp only [Build] at hb
  by_cases hec : 0 < ec ∨ ([r] : List String).length ≠ 1
  · rw [if_pos hec] at hb
    simp at hb
  · rw [if_neg hec] at hb
    rcases hrun : buildTree g m fuel (WTask.visit r) emptyState with _ | s0
    · rw [hrun] at hb
      simp at hb
    · rw [hrun] at hb
      dsimp only at hb
      rcases hkeys : s0.keys with _ | ⟨k, ks⟩
      · rw [hkeys] at hb
        simp at hb
      · rw [hkeys] at hb
        dsimp only at hb
        rcases hfind : findRoot s0 fuel k with _ | rt0
        · rw [hfind] at hb
          simp at hb
        · rw [hfind] at hb
          simp only [Option.some.injEq, Except.ok.injEq, Prod.mk.injEq] at hb
          obtain ⟨rfl, rfl⟩ := hb
          have hmr : m r = true := by
            by_cases h : m r = true
            · exact h
            · exfalso
              have hfalse : m r = false := by
                cases hmb : m r
                · rfl
                · exact absurd hmb h
              have hemp := (built_state_inv hrun).2.2.1 hfalse
              rw [hemp] at hkeys
              simp [emptyState] at hkeys
          obtain ⟨hI, hpost, -, -⟩ := built_state_inv hrun
          have hrk : r ∈ s0.keys := (hpost hmr).1
          have hproot : s0.parents r = [] := built_parents_root hrun hmr
          have huniq : ∀ x ∈ s0.keys, s0.parents x = [] → x = r := by
            intro x hx hpx
            by_contra hne
            exact (hI.2.2.2.2.2 x hx hne) hpx
          have hPK := built_parents_in_keys hrun
          have hNoCyc := built_no_upcycle hrun hmr
          have hchase : ∀ x ∈ s0.keys, ∃ n, findRoot s0 n x = some r := by
            intro x hx
            obtain ⟨n, y, hy⟩ := chase_aux hPK hNoCyc s0.keys.length [] x hx
              (List.not_mem_nil x) List.nodup_nil
              (fun y hy => absurd hy (List.not_mem_nil y))
              (fun y hy => absurd hy (List.not_mem_nil y)) (by simp)
            have hyk : y ∈ s0.keys := findRoot_some_mem hPK n x y hx hy
            have hyp : s0.parents y = [] := findRoot_some_parents n x y hy
            rw [huniq y hyk hyp] at hy
            exact ⟨n, hy⟩
          have hkmem : k ∈ s0.keys := by rw [hkeys]; exact List.mem_cons_self k ks
          have hrtk : rt0 ∈ s0.keys := findRoot_some_mem hPK fuel k rt0 hkmem hfind
          have hrtp : s0.parents rt0 = [] := findRoot_some_parents fuel k rt0 hfind
          exact ⟨huniq rt0 hrtk hrtp, hrk, hproot, huniq, hchase⟩

/-- Witness for C2 on the happy-path test graph. -/
theorem C2_build_root_unique_witness :
    "a" = "a" ∧ "a" ∈ sHappy.keys ∧ sHappy.parents "a" = [] ∧
      (∀ x ∈ sHappy.keys, sHappy.parents x = [] → x = "a") ∧
      (∀ x ∈ sHappy.keys, ∃ n, findRoot sHappy n x = some "a") :=
  C2_build_root_unique gHappy mHappy 16 "a" 0 "a" sHappy rfl

/-! ## Claim C3 -/

/-- C3 counterexample: on the happy-path test graph the predicate is
evaluated four times on the unit `a/a` (once in each of the two import
loops that discover it, and once at each of the two resulting
`buildTree` entries), refuting "exactly once per discovered unit". -/
theorem C3_exactly_once_counterexample :
    ((buildTreeCount gHappy mHappy 16 (WTask.visit "a") cInit).map
      (fun c => c.calls "a/a")) = some 4 ∧ (4 : Nat) ≠ 1 := by
  constructor
  · decide
  · decide

/-- C3 amended: the predicate is evaluated at least once per discovered
unit — once at every discovery, i.e. at each `buildTree` entry and at
each occurrence in an imports loop, so a multiply-discovered unit is
evaluated several times — and a unit for which it returns false acts as
a graph terminator: the visit changes no graph state (it is not added
as a node and its imports are not traversed through it), only the
evaluation counter of that unit is incremented. -/
theorem C3_predicate_amended (g : Graph) (m : MatchPkg) (fuel : Nat) (r : String)
    (c' : CState)
    (hb : buildTreeCount g m fuel (WTask.visit r) cInit = some c') :
    (∀ x ∈ c'.bs.keys, 1 ≤ c'.calls x) ∧
      (∀ (u : String) (c : CState), m u = false → ∀ n, 1 ≤ n →
        buildTreeCount g m n (WTask.visit u) c = some ⟨c.bs, bump c.calls u⟩) ∧
      (∀ (u : String) (s : BState), m u = false → ∀ n, 1 ≤ n →
        buildTree g m n (WTask.visit u) s = some s) := by
  refine ⟨?_, ?_, ?_⟩
  · exact buildTreeCount_ge1 g m fuel _ cInit c' hb
      (fun y hy => absurd hy (List.not_mem_nil y))
  · intro u c hu n hn
    exact buildTreeCount_terminator g m hu n c hn
  · intro u s hu n hn
    exact buildTree_terminator g m hu n s hn

/-- Witness for the amended C3 on the happy-path test graph. -/
theorem C3_predicate_amended_witness :
    (∀ x ∈ (((buildTreeCount gHappy mHappy 16 (WTask.visit "a") cInit).getD cInit)).bs.keys,
      1 ≤ (((buildTreeCount gHappy mHappy 16 (WTask.visit "a") cInit).getD cInit)).calls x) ∧
      (∀ (u : String) (c : CState), mHappy u = false → ∀ n, 1 ≤ n →
        buildTreeCount gHappy mHappy n (WTask.visit u) c = some ⟨c.bs, bump c.calls u⟩) ∧
      (∀ (u : String) (s : BState), mHappy u = false → ∀ n, 1 ≤ n →
        buildTree gHappy mHappy n (WTask.visit u) s = some s) :=
  C3_predicate_amended gHappy mHappy 16 "a"
    (((buildTreeCount gHappy mHappy 16 (WTask.visit "a") cInit).getD cInit)) rfl

/-! ## Claim C6 -/

/-- C6: a successful build materializes exactly one node per included
identifier — the map key set has no duplicates, and no
`Children` or `Parents` list of a node repeats an entry — and the node of an
included identifier appears in the `Children` of every materialized
node that imports it (and symmetrically in its own `Parents`). -/
theorem C6_dedup (g : Graph) (m : MatchPkg) (fuel : Nat) (r : String) (s' : BState)
    (hb : buildTree g m fuel (WTask.visit r) emptyState = some s') :
    s'.keys.Nodup ∧ (∀ x, (s'.children x).Nodup ∧ (s'.parents x).Nodup) ∧
      (∀ p ∈ s'.keys, ∀ c, c ∈ g.imports p → m c = true →
        c ∈ s'.keys ∧ c ∈ s'.children p ∧ p ∈ s'.parents c) := by
  obtain ⟨hI, -, -, hnew⟩ := built_state_inv hb
  refine ⟨hI.2.1, hI.2.2.1, ?_⟩
  intro p hp c hc hmc
  have hdone : Done g m s' p := hnew p hp (by simp [emptyState])
  obtain ⟨h1, h2⟩ := hdone c hc hmc
  exact ⟨h1, h2, (hI.1 p c).1 h2⟩

/-- Witness for C6: on the happy-path graph `a/a` is imported by both
`a` and `c` yet is materialized once and listed under both. -/
theorem C6_dedup_witness :
    sHappy.keys.Nodup ∧ (∀ x, (sHappy.children x).Nodup ∧ (sHappy.parents x).Nodup) ∧
      (∀ p ∈ sHappy.keys, ∀ c, c ∈ gHappy.imports p → mHappy c = true →
        c ∈ sHappy.keys ∧ c ∈ sHappy.children p ∧ p ∈ sHappy.parents c) :=
  C6_dedup gHappy mHappy 16 "a" sHappy rfl

/-! ## Claim C7 -/

/-- C7: a unit failing the predicate never appears in the built graph,
visiting it changes nothing (its imports are not traversed through it),
and every materialized unit other than the root got there through some
materialized importer that passed the predicate. -/
theorem C7_predicate_exclusion (g : Graph) (m : MatchPkg) (fuel : Nat) (r : String)
    (s' : BState) (u : String)
    (hb : buildTree g m fuel (WTask.visit r) emptyState = some s') (hu : m u = false) :
    u ∉ s'.keys ∧
      (∀ n s, 1 ≤ n → buildTree g m n (WTask.visit u) s = some s) ∧
      (∀ x ∈ s'.keys, x ≠ r → ∃ p, p ∈ s'.keys ∧ m p = true ∧ x ∈ g.imports p) := by
  obtain ⟨hI, -, -, -⟩ := built_state_inv hb
  refine ⟨?_, ?_, ?_⟩
  · intro hmem
    have := (hI.2.2.2.2.1 u hmem).1
    rw [hu] at this
    exact absurd this (by simp)
  · intro n s hn
    exact buildTree_terminator g m hu n s hn
  · intro x hx hxr
    obtain ⟨q, hq⟩ := List.exists_mem_of_ne_nil _ (hI.2.2.2.2.2 x hx hxr)
    have hxc : x ∈ s'.children q := (hI.1 q x).2 hq
    obtain ⟨hmq, -, hxi, -, hqk, -⟩ := hI.2.2.2.1 q x hxc
    exact ⟨q, hqk, hmq, hxi⟩

/-- Witness for C7: `e` is rejected by the happy-path predicate and is
indeed absent from the built graph. -/
theorem C7_predicate_exclusion_witness :
    "e" ∉ sHappy.keys ∧
      (∀ n s, 1 ≤ n → buildTree gHappy mHappy n (WTask.visit "e") s = some s) ∧
      (∀ x ∈ sHappy.keys, x ≠ "a" →
        ∃ p, p ∈ sHappy.keys ∧ mHappy p = true ∧ x ∈ gHappy.imports p) :=
  C7_predicate_exclusion gHappy mHappy 16 "a" sHappy "e" rfl (by decide)

/-! ## Claim C4 -/

/-- C4 (removal modelled from spec §4.2; its Go source is absent from
src/, only its test): `removeNodeRecursively(root, target)` detaches
the target from all its parents and removes it from the parents of
each of its children; per child `c` of the target, `c` is recursively
removed if and only if the parents of `c` become empty — when they do,
`c` ends with no parents, absent from every node's `Parents`
collection and linked from no surviving node; when another parent
still references `c`, the subtree of `c` is untouched: its children
list is unchanged (save a possible back-edge to the target) and it
keeps every parent that itself survives, while any node that still has
parents stays attached via one of them.  In particular, on the test
graph `root→B1→C, root→B2→C`, removing `C` leaves `B1` and `B2` each
with zero children and the root otherwise unchanged, and on the chain
`root→b→c`, removing `b` cascades into `c`. -/
theorem C4_removeNodeRecursively_cascade (s : BState) (rt t : String) (n : Nat)
    (s'' : BState) (hsym : SymB s) (hself : t ∉ s.parents t)
    (hrun : removeNodeRecursively n rt s t = some s'') :
    s''.parents t = [] ∧ (∀ p, t ∉ s''.children p) ∧
      (∀ c ∈ s.children t, t ∉ s''.parents c) ∧
      (∀ c ∈ s.children t, s''.children c = removeFrom (s.children c) t) ∧
      (∀ c ∈ s.children t, ∀ p ∈ s.parents c, s''.parents p ≠ [] → p ∈ s''.parents c) ∧
      (∀ c ∈ s.children t, removeFrom (s.parents c) t = [] →
        s''.parents c = [] ∧ (∀ d, c ∉ s''.parents d) ∧
        (∀ p, s''.parents p ≠ [] → c ∉ s''.children p)) ∧
      (∀ c, s''.parents c ≠ [] → ∃ p, p ∈ s''.parents c ∧ c ∈ s''.children p) ∧
      ((removeNodeRecursively 16 "root" sShared "c").isSome = true ∧
        sSharedRemoved.children "b1" = [] ∧ sSharedRemoved.children "b2" = [] ∧
        sSharedRemoved.children "root" = ["b1", "b2"] ∧
        sSharedRemoved.parents "b1" = ["root"] ∧ sSharedRemoved.parents "b2" = ["root"] ∧
        sSharedRemoved.parents "c" = [] ∧
        sChainRemoved.parents "c" = [] ∧ sChainRemoved.children "root" = []) := by
  have hrun0 : removeRun n (RTask.rem t) s = some s'' := hrun
  have h1 : Half1 s := fun p c hp => (hsym p c).2 hp
  have h2 : Half2 s := fun p c hc => Or.inl ((hsym p c).1 hc)
  have hG : ∀ c, s''.parents c ≠ [] → ∃ p, p ∈ s''.parents c ∧ c ∈ s''.children p := by
    obtain ⟨g1, -⟩ := removeRun_halfSym n (RTask.rem t) s s'' hrun0 h1 h2
      (fun t' cs hh => by simp at hh)
    intro c hc
    obtain ⟨p, hp⟩ := List.exists_mem_of_ne_nil _ hc
    exact ⟨p, hp, g1 p c hp⟩
  have hrest : (∀ c ∈ s.children t, t ∉ s''.parents c) ∧
      (∀ c ∈ s.children t, s''.children c = removeFrom (s.children c) t) ∧
      (∀ c ∈ s.children t, ∀ p ∈ s.parents c, s''.parents p ≠ [] → p ∈ s''.parents c) ∧
      (∀ c ∈ s.children t, removeFrom (s.parents c) t = [] →
        s''.parents c = [] ∧ (∀ d, c ∉ s''.parents d) ∧
        (∀ p, s''.parents p ≠ [] → c ∉ s''.children p)) := by
    cases n with
    | zero => simp [removeRun] at hrun0
    | succ n' =>
      have hrun' := hrun0
      rw [removeRun_rem_eq] at hrun'
      have htnotch : t ∉ s.children t := fun hmem => hself ((hsym t t).1 hmem)
      have hch1 : (step1 s t).children t = s.children t := by
        rw [step1_children, if_neg hself]
      rw [hch1] at hrun'
      have h1s := step1_half1 t h1
      have h2s := step1_half2 t h2
      have hpts : (step1 s t).parents t = [] := by
        rw [step1_parents, if_pos rfl]
      have hstep_par : ∀ c' ∈ s.children t, (step1 s t).parents c' = s.parents c' := by
        intro c' hc'
        rw [step1_parents, if_neg (fun he : c' = t => htnotch (he ▸ hc'))]
      have hcc := removeRun_children_const n' _ _ _ hrun' (fun u hu => by simp at hu)
      refine ⟨?_, ?_, ?_, ?_⟩
      · intro c hc
        exact removeRun_kids_not_parent n' t (s.children t) (step1 s t) s'' hrun' c hc
      · intro c hc
        rw [hcc c, step1_children]
        by_cases hcp : c ∈ s.parents t
        · rw [if_pos hcp]
        · rw [if_neg hcp]
          have htc : t ∉ s.children c := fun hmem => hcp ((hsym c t).1 hmem)
          exact (removeFrom_eq_self htc).symm
      · intro c hc p hp hne
        exact (removeRun_surv_parent n').2 t (s.children t) (step1 s t) s'' hrun' hpts
          p c (by rw [hstep_par c hc]; exact hp) hne
      · intro c hc hemp
        have hkc := removeRun_kids_cascade n' t (s.children t) (step1 s t) s'' hrun'
          h1s h2s hpts c hc (by rw [hstep_par c hc]; exact hemp)
        refine ⟨hkc.1, hkc.2, ?_⟩
        intro p hpne hmem
        have hmem1 : c ∈ (step1 s t).children p := (hcc p) ▸ hmem
        have hmem0 : c ∈ s.children p := (step1_shrink s t).1 p hmem1
        have hpc : p ∈ s.parents c := (hsym p c).1 hmem0
        have hcnt : c ≠ t := fun he => htnotch (he ▸ hc)
        have hsurv := (removeRun_surv_parent (n' + 1)).1 t s s'' hrun0 p c hcnt hpc hpne
        rw [hkc.1] at hsurv
        exact absurd hsurv (List.not_mem_nil p)
  exact ⟨removeRun_rem_parents n t s s'' hrun0,
    removeRun_rem_not_child n t s s'' hsym hrun0, hrest.1, hrest.2.1, hrest.2.2.1,
    hrest.2.2.2, hG, by decide, by decide, by decide, by decide, by decide, by decide,
    by decide, by decide, by decide⟩

/-- Witness for C4 on the shared-child test graph, removing `C`. -/
theorem C4_removeNodeRecursively_cascade_witness :
    sSharedRemoved.parents "c" = [] ∧ (∀ p, "c" ∉ sSharedRemoved.children p) ∧
      (∀ c ∈ sShared.children "c", "c" ∉ sSharedRemoved.parents c) ∧
      (∀ c ∈ sShared.children "c",
        sSharedRemoved.children c = removeFrom (sShared.children c) "c") ∧
      (∀ c ∈ sShared.children "c", ∀ p ∈ sShared.parents c,
        sSharedRemoved.parents p ≠ [] → p ∈ sSharedRemoved.parents c) ∧
      (∀ c ∈ sShared.children "c", removeFrom (sShared.parents c) "c" = [] →
        sSharedRemoved.parents c = [] ∧ (∀ d, c ∉ sSharedRemoved.parents d) ∧
        (∀ p, sSharedRemoved.parents p ≠ [] → c ∉ sSharedRemoved.children p)) ∧
      (∀ c, sSharedRemoved.parents c ≠ [] →
        ∃ p, p ∈ sSharedRemoved.parents c ∧ c ∈ sSharedRemoved.children p) ∧
      ((removeNodeRecursively 16 "root" sShared "c").isSome = true ∧
        sSharedRemoved.children "b1" = [] ∧ sSharedRemoved.children "b2" = [] ∧
        sSharedRemoved.children "root" = ["b1", "b2"] ∧
        sSharedRemoved.parents "b1" = ["root"] ∧ sSharedRemoved.parents "b2" = ["root"] ∧
        sSharedRemoved.parents "c" = [] ∧
        sChainRemoved.parents "c" = [] ∧ sChainRemoved.children "root" = []) :=
  C4_removeNodeRecursively_cascade sShared "root" "c" 16 sSharedRemoved
    ((built_state_inv (show buildTree gShared mAll 16 (WTask.visit "root") emptyState
      = some sShared from rfl)).1.1)
    (by decide) rfl

/-! ## Claim C5 -/

/-- C5 counterexample: on the built chain `root→b→c`, removing `b`
leaves the stale reference `c ∈ b.Children` while `b ∉ c.Parents`,
although both `b` and `c` are nodes of the graph produced by `Build` —
full bidirectional symmetry does not survive `removeNodeRecursively`
at the removed node. -/
theorem C5_counterexample :
    "b" ∈ sChain.keys ∧ "c" ∈ sChain.keys ∧
      (removeNodeRecursively 16 "root" sChain "b").isSome = true ∧
      "c" ∈ sChainRemoved.children "b" ∧ "b" ∉ sChainRemoved.parents "c" := by
  refine ⟨by decide, by decide, by decide, by decide, by decide⟩

/-- C5 amended: for every graph produced by a successful build, `c ∈
p.Children ⟺ p ∈ c.Parents` and no `Children`/`Parents` list repeats
an entry; after a `removeNodeRecursively` call the backward direction
survives in full (every recorded parent link is backed by a child
link), and the forward direction survives except at detached nodes: a
child link is backed by a parent link unless the linking node has
itself been detached (empty parents), since a removed node keeps stale
references in its own children list (spec §4.2 step 2). -/
theorem C5_bidirectional_amended (g : Graph) (m : MatchPkg) (fuel : Nat) (r : String)
    (sB : BState) (n : Nat) (rt t : String) (s'' : BState)
    (hb : buildTree g m fuel (WTask.visit r) emptyState = some sB)
    (hr : removeNodeRecursively n rt sB t = some s'') :
    (SymB sB ∧ (∀ x, (sB.children x).Nodup ∧ (sB.parents x).Nodup)) ∧
      (∀ p c, p ∈ s''.parents c → c ∈ s''.children p) ∧
      (∀ p c, c ∈ s''.children p → p ∈ s''.parents c ∨ s''.parents p = []) := by
  obtain ⟨hI, -, -, -⟩ := built_state_inv hb
  have h1 : Half1 sB := fun p c hp => (hI.1 p c).2 hp
  have h2 : Half2 sB := fun p c hc => Or.inl ((hI.1 p c).1 hc)
  obtain ⟨g1, g2⟩ := removeRun_halfSym n (RTask.rem t) sB s'' hr h1 h2
    (fun t' cs h => by simp at h)
  exact ⟨⟨hI.1, hI.2.2.1⟩, g1, g2⟩

/-- Witness for the amended C5 on the chain graph, removing `b`. -/
theorem C5_bidirectional_amended_witness :
    (SymB sChain ∧ (∀ x, (sChain.children x).Nodup ∧ (sChain.parents x).Nodup)) ∧
      (∀ p c, p ∈ sChainRemoved.parents c → c ∈ sChainRemoved.children p) ∧
      (∀ p c, c ∈ sChainRemoved.children p →
        p ∈ sChainRemoved.parents c ∨ sChainRemoved.parents p = []) :=
  C5_bidirectional_amended gChain mAll 16 "root" sChain 16 "root" "b" sChainRemoved
    rfl rfl

/-! ## Claim C9 -/

/-- C9 (removal modelled from spec §4.2): `removeNodeRecursively` is
idempotent on already-detached nodes: on a node with no parents and no
remaining linked children — none of its (possibly stale) children
links back to it, and stale children that were themselves orphaned by
the earlier cascade are detached in the same sense — a (second)
invocation terminates and returns the state exactly unchanged: no
structural change to any node of the graph. -/
theorem C9_remove_idempotent (s : BState) (rt t : String) (hdet : DetachedAt s t) :
    (∃ n, removeNodeRecursively n rt s t = some s) ∧
      ∀ n s', removeNodeRecursively n rt s t = some s' → s' = s := by
  constructor
  · exact detached_rem_exists hdet
  · intro n s' h
    exact (removeRun_detached_eq n).1 t s s' hdet h

/-- Witness for C9: removing `b` a second time on the chain
`root→b→c`, after the first removal already detached `b` and cascaded
into `c` (so `b` keeps the stale child `c`, which is itself detached),
changes nothing. -/
theorem C9_remove_idempotent_witness :
    (∃ n, removeNodeRecursively n "root" sChainRemoved "b" = some sChainRemoved) ∧
      ∀ n s', removeNodeRecursively n "root" sChainRemoved "b" = some s' →
        s' = sChainRemoved := by
  have hcc : sChainRemoved.children "c" = [] := by decide
  have hcb : sChainRemoved.children "b" = ["c"] := by decide
  have hdc : DetachedAt sChainRemoved "c" := by
    refine DetachedAt.mk "c" (by decide) ?_ ?_
    · intro c hc
      rw [hcc] at hc
      exact absurd hc (List.not_mem_nil c)
    · intro c hc
      rw [hcc] at hc
      exact absurd hc (List.not_mem_nil c)
  have hdb : DetachedAt sChainRemoved "b" := by
    refine DetachedAt.mk "b" (by decide) ?_ ?_
    · intro c hc
      rw [hcb] at hc
      obtain rfl : c = "c" := List.mem_singleton.1 hc
      decide
    · intro c hc hp
      rw [hcb] at hc
      obtain rfl : c = "c" := List.mem_singleton.1 hc
      exact hdc
  exact C9_remove_idempotent sChainRemoved "root" "b" hdb

/-! ## Claim C8 -/

/-- C8: `Build` (when it terminates) returns an error in exactly these
cases: the loader hook returned an error (propagated as-is), the
error-count hook reported a positive count, the loader returned a
number of top-level units different from one, or the walk materialized
no node so no root exists.  In every such case the result is an error
value carrying no node — the `ok` constructor with its node is only
produced when none of the conditions holds, so no partially built graph
is ever returned. -/
theorem C8_build_error_cases (g : Graph) (m : MatchPkg) (fuel : Nat)
    (lr : Except String (List String)) (ec : Nat)
    (res : Except String (String × BState))
    (hb : Build g m fuel lr ec = some res) :
    (∃ e, res = Except.error e) ↔
      ((∃ e, lr = Except.error e) ∨ 0 < ec ∨
        (∃ ps, lr = Except.ok ps ∧ ps.length ≠ 1) ∨
        (∃ p s', lr = Except.ok [p] ∧ ec = 0 ∧
          buildTree g m fuel (WTask.visit p) emptyState = some s' ∧ s'.keys = [])) := by
  match lr with
  | Except.error e =>
    simp only [Build] at hb
    obtain rfl : Except.error e = res := by injection hb
    exact ⟨fun _ => Or.inl ⟨e, rfl⟩, fun _ => ⟨e, rfl⟩⟩
  | Except.ok ps =>
    simp only [Build] at hb
    by_cases hc : 0 < ec ∨ ps.length ≠ 1
    · rw [if_pos hc] at hb
      obtain rfl : Except.error "failed to load source package" = res := by injection hb
      refine ⟨fun _ => ?_, fun _ => ⟨_, rfl⟩⟩
      rcases hc with h | h
      · exact Or.inr (Or.inl h)
      · exact Or.inr (Or.inr (Or.inl ⟨ps, rfl, h⟩))
    · rw [if_neg hc] at hb
      push_neg at hc
      obtain ⟨hec, hlen⟩ := hc
      have hec0 : ec = 0 := by omega
      obtain ⟨p, rfl⟩ := List.length_eq_one.1 hlen
      dsimp only at hb
      rcases hrun : buildTree g m fuel (WTask.visit p) emptyState with _ | s0
      · rw [hrun] at hb
        simp at hb
      · rw [hrun] at hb
        dsimp only at hb
        rcases hkeys : s0.keys with _ | ⟨k, ks⟩
        · rw [hkeys] at hb
          obtain rfl : Except.error "could not find tree root node" = res := by injection hb
          refine ⟨fun _ => ?_, fun _ => ⟨_, rfl⟩⟩
          exact Or.inr (Or.inr (Or.inr ⟨p, s0, rfl, hec0, hrun, hkeys⟩))
        · rw [hkeys] at hb
          dsimp only at hb
          rcases hfind : findRoot s0 fuel k with _ | rt0
          · rw [hfind] at hb
            simp at hb
          · rw [hfind] at hb
            obtain rfl : Except.ok (rt0, s0) = res := by injection hb
            constructor
            · rintro ⟨e, he⟩
              exact absurd he (by simp)
            · rintro (⟨e, he⟩ | h | ⟨ps', hps', hlen'⟩ | ⟨p', s'', heq, -, hrun', hk⟩)
              · exact absurd he (by simp)
              · omega
              · obtain rfl : [p] = ps' := by injection hps'
                simp at hlen'
              · obtain rfl : p = p' := by
                  have : [p] = [p'] := by injection heq
                  injection this
                rw [hrun] at hrun'
                obtain rfl : s0 = s'' := by injection hrun'
                rw [hkeys] at hk
                simp at hk

/-- Witness for C8 at a concrete failing loader. -/
theorem C8_build_error_cases_witness :
    (∃ e, (Except.error "boom" : Except String (String × BState)) = Except.error e) ↔
      ((∃ e, (Except.error "boom" : Except String (List String)) = Except.error e) ∨
        0 < 0 ∨
        (∃ ps, (Except.error "boom" : Except String (List String)) = Except.ok ps ∧
          ps.length ≠ 1) ∨
        (∃ p s', (Except.error "boom" : Except String (List String)) = Except.ok [p] ∧
          0 = 0 ∧ buildTree gHappy mHappy 5 (WTask.visit p) emptyState = some s' ∧
          s'.keys = [])) :=
  C8_build_error_cases gHappy mHappy 5 (Except.error "boom") 0 (Except.error "boom") rfl
